import Mathlib

/-!
# Verification of the semantic-relevance signal pipeline

Shallow embedding of the core of the `semantic-relevance` repository:

* `src/signal/embeddings.js` — LRU-cached embedding context, cosine similarity,
  batch relevance scoring;
* `src/signal/novelty.js`    — decay-based novelty tracker with buffered writes;
* `src/signal/scoring.js`    — recency / engagement / composite scoring;
* `src/signal/filter.js`     — keyword classifier and the `filterItems` pipeline.

Modelling conventions:

* JS numbers are modelled by an arbitrary linear ordered field `α` (instantiated
  at `ℚ` for concrete evaluation and at `ℝ` for analytic facts).  Transcendental
  primitives (`Math.exp`, `Math.sqrt`, `Math.log(2)`) are passed explicitly in an
  `RMath α` record; at `ℝ` they are instantiated with `Real.exp`, `Real.sqrt`
  and `Real.log 2`.  In `α`, division by zero yields `0` (JS would give
  `Infinity`/`NaN`); no theorem below depends on that corner.
* JS `Map`s are modelled as association lists in insertion order; JS `Set`s as
  lists with membership.  Timestamps are field elements (milliseconds).
* `async` control flow is sequentialised; fallible calls return `Except`.
* Where a definition returns an extra `Bool`, it is instrumentation recording
  whether the expensive external computation was actually performed; it does not
  alter the data flow of the source.
-/

namespace SemanticRelevance

/-! ## Association-list operations mirroring JS `Map` -/

/-- First value stored under key `k` (JS `Map.get`; keys are unique in a `Map`). -/
def alookup {κ ν : Type} [DecidableEq κ] (k : κ) : List (κ × ν) → Option ν
  | [] => none
  | (k', v) :: rest => if k' = k then some v else alookup k rest

/-- JS `Map.set`: replace the value in place if the key exists, else append. -/
def aset {κ ν : Type} [DecidableEq κ] (k : κ) (v : ν) : List (κ × ν) → List (κ × ν)
  | [] => [(k, v)]
  | (k', v') :: rest => if k' = k then (k, v) :: rest else (k', v') :: aset k v rest

/-- JS `Map.delete` (on maps with unique keys): drop the entry for `k`. -/
def aerase {κ ν : Type} [DecidableEq κ] (k : κ) (l : List (κ × ν)) : List (κ × ν) :=
  l.filter (fun p => p.1 ≠ k)

/-- `[...new Set(l)]`: deduplicate keeping first occurrences. -/
def jsDedup {κ : Type} [DecidableEq κ] : List κ → List κ
  | [] => []
  | x :: xs => x :: jsDedup (xs.filter (· ≠ x))
termination_by l => l.length
decreasing_by
  simpa using Nat.lt_succ_of_le (List.length_filter_le _ xs)

deriving instance DecidableEq for Except

/-- JS `String.prototype.trim`: strip leading and trailing whitespace.
(`String.trim` itself does not reduce under `decide`, so the model works on
the character list.) -/
def jsTrim (s : String) : String :=
  String.mk (((s.toList.dropWhile Char.isWhitespace).reverse.dropWhile
    Char.isWhitespace).reverse)

/-! ## Numeric primitives -/

/-- The transcendental primitives the source takes from JS `Math`.  `log2`
stands for the constant `Math.log(2)`. -/
structure RMath (α : Type) where
  exp : α → α
  sqrt : α → α
  log2 : α

/-- `Math.round`: round half toward `+∞`. -/
def jround {α : Type} [LinearOrderedField α] [FloorRing α] (x : α) : ℤ := ⌊x + 1/2⌋

/-- Milliseconds per day, `1000 * 60 * 60 * 24` in the source. -/
def msPerDay : ℕ := 1000 * 60 * 60 * 24

/-! ## Novelty tracker (`src/signal/novelty.js`)

The pluggable storage adapter is modelled by the default `MemoryStorageAdapter`:
an association list from item id to record.  Caller metadata is an opaque
payload `μ` (the pipeline stores `{title, source}` there). -/

/-- `NoveltyRecord`: `{itemId, firstSeen, lastSeen, seenCount, ...metadata}`. -/
structure NoveltyRecord (α μ : Type) where
  itemId : String
  firstSeen : α
  lastSeen : α
  seenCount : ℕ
  meta : μ
  deriving Repr, DecidableEq

/-- State of a `NoveltyTracker`, including its (memory-adapter) storage. -/
structure NoveltyTracker (α μ : Type) where
  halfLifeDays : α
  minScore : α
  cache : List (String × NoveltyRecord α μ)
  pendingUpdates : List (String × NoveltyRecord α μ)
  storage : List (String × NoveltyRecord α μ)
  deriving Repr, DecidableEq

/-- A tracker with empty cache/pending/storage (fresh `new NoveltyTracker`). -/
def NoveltyTracker.init {α μ : Type} (halfLifeDays minScore : α) : NoveltyTracker α μ :=
  { halfLifeDays := halfLifeDays, minScore := minScore,
    cache := [], pendingUpdates := [], storage := [] }

/-- `loadBatch(itemIds)`: pre-warm the cache from storage for the given ids. -/
def NoveltyTracker.loadBatch {α μ : Type} (t : NoveltyTracker α μ) (itemIds : List String) :
    NoveltyTracker α μ :=
  { t with cache :=
      itemIds.foldl (fun c id =>
        match alookup id t.storage with
        | some data => aset id data c
        | none => c) t.cache }

/-- `getNoveltyScore(itemId)` at time `now` (milliseconds):
`1.0` for unseen items, otherwise
`max(minScore, exp(-(log 2 / halfLifeDays) * daysSinceFirstSeen))`. -/
def NoveltyTracker.getNoveltyScore {α μ : Type} [LinearOrderedField α]
    (rm : RMath α) (t : NoveltyTracker α μ) (itemId : String) (now : α) : α :=
  match alookup itemId t.cache with
  | none => 1
  | some data =>
    let daysSinceFirstSeen := (now - data.firstSeen) / (msPerDay : α)
    let decayRate := rm.log2 / t.halfLifeDays
    max t.minScore (rm.exp (-(decayRate * daysSinceFirstSeen)))

/-- `markSeen(itemId, metadata)` at time `now`.  The update branch computes
`(existing.seenCount || 1) + 1`; the creation branch builds a fresh record. -/
def NoveltyTracker.markSeen {α μ : Type} (t : NoveltyTracker α μ)
    (itemId : String) (metadata : μ) (now : α) : NoveltyTracker α μ :=
  match alookup itemId t.cache with
  | some existing =>
    let updated : NoveltyRecord α μ :=
      { existing with
          lastSeen := now,
          seenCount := (if existing.seenCount = 0 then 1 else existing.seenCount) + 1 }
    { t with cache := aset itemId updated t.cache,
             pendingUpdates := aset itemId updated t.pendingUpdates }
  | none =>
    let newRecord : NoveltyRecord α μ :=
      { itemId := itemId, firstSeen := now, lastSeen := now, seenCount := 1, meta := metadata }
    { t with cache := aset itemId newRecord t.cache,
             pendingUpdates := aset itemId newRecord t.pendingUpdates }

/-- `flush()`: no-op on an empty pending set; otherwise save the pending
records to storage and clear the pending set.  The second component is
instrumentation: `none` means the backend `save` was not called, `some rs`
means it was called with exactly `rs`. -/
def NoveltyTracker.flush {α μ : Type} (t : NoveltyTracker α μ) :
    NoveltyTracker α μ × Option (List (NoveltyRecord α μ)) :=
  if t.pendingUpdates.isEmpty then (t, none)
  else
    let records := t.pendingUpdates.map Prod.snd
    ({ t with storage := records.foldl (fun d r => aset r.itemId r d) t.storage,
              pendingUpdates := [] },
     some records)

/-- A sequence of `markSeen` calls, in order (`id`, `metadata`, `now`). -/
def NoveltyTracker.markSeenSeq {α μ : Type} (t : NoveltyTracker α μ)
    (ops : List (String × μ × α)) : NoveltyTracker α μ :=
  ops.foldl (fun t op => t.markSeen op.1 op.2.1 op.2.2) t

/-! ## Items

An `Item` as the pipeline sees it.  JS objects may lack fields, so optional
numeric fields are `Option α`; a missing string field is the empty string
(the source always reads strings through `|| ''`).  `metadata` carries the
source-specific engagement and timestamp fields used by `scoring.js`. -/

structure Metadata (α : Type) where
  stars : Option α := none
  forks : Option α := none
  points : Option α := none
  comments : Option α := none
  score : Option α := none
  reactions : Option α := none
  likes : Option α := none
  downloads : Option α := none
  votes : Option α := none
  citations : Option α := none
  upvotes : Option α := none
  pushed_at : Option α := none
  updated_at : Option α := none
  created_at : Option α := none
  published : Option α := none
  created_utc : Option α := none
  deriving Repr, DecidableEq

/-- The `filter_result` object attached to a passing item by `filterItems`.
`relevance_score`/`confidence` are optional because `calculateSignalScore`
accepts arbitrary caller items and probes them with `?.`/`|| 'medium'`. -/
structure FilterResult (α : Type) where
  signal_type : String := ""
  confidence : Option String := none
  keyword_confidence : String := ""
  matched_keyword : Option String := none
  is_watched : Bool := false
  reason : String := ""
  relevance_score : Option α := none
  novelty_score : Option α := none
  deriving Repr, DecidableEq

structure Item (α : Type) where
  id : String := ""
  source : String := ""
  title : String := ""
  description : String := ""
  url : String := ""
  fetched_at : Option α := none
  timestamp : Option α := none
  date : Option α := none
  metadata : Metadata α := {}
  filter_result : Option (FilterResult α) := none
  filtered_at : Option α := none
  deriving Repr, DecidableEq

/-! ## Classifier (`FilterContext` in `src/signal/filter.js`)

Keyword matching works on `List Char`; JS `toLowerCase` is `Char.toLower`
per character (they agree on ASCII, the only case the keyword lists produce). -/

/-- Lowercase a character list (JS `toLowerCase`). -/
def lowerL (cs : List Char) : List Char := cs.map Char.toLower

/-- `/^[a-z0-9]+$/i.test(keyword)` - nonempty, ASCII alphanumeric only. -/
def isAlnumOnlyKw (kw : List Char) : Bool := !kw.isEmpty && kw.all Char.isAlphanum

/-- Regex word character `\w = [A-Za-z0-9_]`, as used by the `\b` anchors. -/
def isWordChar (c : Char) : Bool := c.isAlphanum || c == '_'

/-- Does `pat` occur in `text` starting at position `p`? -/
def sliceEq (text pat : List Char) (p : ℕ) : Bool :=
  (text.drop p).take pat.length == pat

/-- JS `indexOf`: first position of `pat` inside `text` (`none` for `-1`). -/
def indexOfSub (text pat : List Char) : Option ℕ :=
  (List.range (text.length + 1)).find? (fun p => sliceEq text pat p)

/-- JS `includes`. -/
def strIncludes (text pat : List Char) : Bool := (indexOfSub text pat).isSome

/-- `new RegExp('\\b' + escaped + '\\b', 'i').test(text)` for an
alphanumeric-only keyword: some case-insensitive occurrence with word
boundaries on both sides. -/
def regexWordBoundaryTest (text kw : List Char) : Bool :=
  (List.range (text.length + 1)).any (fun p =>
    sliceEq (lowerL text) (lowerL kw) p &&
    (p == 0 || !isWordChar (text.getD (p - 1) ' ')) &&
    (decide (text.length ≤ p + kw.length) || !isWordChar (text.getD (p + kw.length) ' ')))

/-- The classifier's `hasKeyword` closure: regex `\b`-matching for purely
alphanumeric keywords, otherwise a manual boundary check around the first
`indexOf` occurrence (`/[a-z0-9]/i` on the neighbouring characters). -/
def hasKeyword (text keyword : List Char) : Bool :=
  let keywordLower := lowerL keyword
  let textLower := lowerL text
  if isAlnumOnlyKw keyword then
    regexWordBoundaryTest text keyword
  else
    match indexOfSub textLower keywordLower with
    | none => false
    | some idx =>
      let beforeOk := idx == 0 || !(text.getD (idx - 1) ' ').isAlphanum
      let afterIdx := idx + keyword.length
      let afterOk := decide (text.length ≤ afterIdx) || !(text.getD afterIdx ' ').isAlphanum
      beforeOk && afterOk

/-- Per-category keyword lists: `{exact, generic}`. -/
structure KeywordSet where
  exact : List String := []
  generic : List String := []
  deriving Repr, DecidableEq

/-- The five fixed signal categories, in source order. -/
def SIGNAL_TYPES : List String :=
  ["competitive", "thesis-challenging", "opportunity", "technical", "trend"]

/-- `DEFAULT_SIGNAL_KEYWORDS` (all `exact` lists empty). -/
def DEFAULT_SIGNAL_KEYWORDS : List (String × KeywordSet) :=
  [("competitive", { generic := ["competitor", "alternative", "similar to", "competes with"] }),
   ("thesis-challenging", { generic := ["contradicts", "challenges", "disproves", "questions"] }),
   ("opportunity", { generic := ["pain point", "frustration", "problem", "gap", "need",
                                 "challenge", "struggle"] }),
   ("technical", { generic := ["architecture", "pattern", "approach", "implementation",
                               "method", "framework"] }),
   ("trend", { generic := ["adoption", "growth", "rising", "popular", "trending", "enterprise"] })]

/-- Result of `classifySignalType`. -/
structure Classification where
  type : String
  keywordConfidence : String
  matchedKeyword : Option String
  isWatched : Bool
  deriving Repr, DecidableEq

/-- User keyword overrides: a global watch list plus per-category exact lists. -/
structure UserKeywords where
  global : List String := []
  perType : String → List String := fun _ => []

/-- Request-scoped `FilterContext` state. -/
structure FilterContext where
  seenIds : List String
  contextKeywords : List String
  signalKeywords : List (String × KeywordSet)
  userGlobalKeywords : List String
  deriving DecidableEq

/-- `new FilterContext({existingIds})`. -/
def FilterContext.init (existingIds : List String) : FilterContext :=
  { seenIds := existingIds, contextKeywords := [],
    signalKeywords := DEFAULT_SIGNAL_KEYWORDS, userGlobalKeywords := [] }

/-- `markSeen(itemId)`: add to the run-local seen set. -/
def FilterContext.markSeen (ctx : FilterContext) (itemId : String) : FilterContext :=
  { ctx with seenIds := if itemId ∈ ctx.seenIds then ctx.seenIds else itemId :: ctx.seenIds }

/-- Binary run-local novelty: `0` if seen in this run, else `1.0`. -/
def FilterContext.getNoveltyScore {α : Type} [LinearOrderedField α]
    (ctx : FilterContext) (itemId : String) : α :=
  if itemId ∈ ctx.seenIds then 0 else 1

/-- `setSignalKeywords(context, userKeywords)`.  The regex mining of the
context document (`parseContextForSignalKeywords`) is isolated behind the
pure parameter `parse`, following the spec's own isolation of
`parse(text) -> structuredKeywordSets`; every claim below holds for an
arbitrary parser.  `parse context ty` is the parsed keyword set for
category `ty`. -/
def FilterContext.setSignalKeywords (ctx : FilterContext)
    (parse : String → String → KeywordSet) (context : String)
    (userKeywords : UserKeywords) : FilterContext :=
  let parsed := parse context
  { ctx with
    userGlobalKeywords := userKeywords.global.map String.toLower,
    signalKeywords := SIGNAL_TYPES.map (fun ty =>
      (ty, { exact := jsDedup ((userKeywords.perType ty).map String.toLower ++ (parsed ty).exact),
             generic := (parsed ty).generic })) }

/-- `setContextKeywords(context)`, with `extractContextKeywords` likewise a
pure parameter. -/
def FilterContext.setContextKeywords (ctx : FilterContext)
    (extractKw : String → List String) (context : String) : FilterContext :=
  { ctx with contextKeywords := extractKw context }

/-- The item text the classifier works on: `` `${title || ''} ${description || ''}` ``. -/
def itemText {α : Type} (item : Item α) : String :=
  item.title ++ " " ++ item.description

/-- The `matchedGlobalKeyword` scan of `classifySignalType`: the first user
global keyword matching the text. -/
def findGlobalKeyword (ctx : FilterContext) (text : List Char) : Option String :=
  ctx.userGlobalKeywords.find? (fun kw => hasKeyword text kw.toList)

/-- The first exact-keyword hit across all categories, in table order
(the classifier's first loop). -/
def findExactHit (ctx : FilterContext) (text : List Char) : Option (String × String) :=
  ctx.signalKeywords.findSome? (fun p =>
    (p.2.exact.find? (fun kw => hasKeyword text kw.toList)).map (fun kw => (p.1, kw)))

/-- The first generic-keyword hit across all categories, in table order
(the classifier's second loop). -/
def findGenericHit (ctx : FilterContext) (text : List Char) : Option (String × String) :=
  ctx.signalKeywords.findSome? (fun p =>
    (p.2.generic.find? (fun kw => hasKeyword text kw.toList)).map (fun kw => (p.1, kw)))

/-- JS truthiness of the nullable `matchedGlobalKeyword`: `null` and the
empty string are both falsy (`if (x)`, `x ? … : …`, `x || y`). -/
def truthyStr (o : Option String) : Bool :=
  match o with
  | some s => decide (s ≠ "")
  | none => false

/-- `classifySignalType(item)`: exact keywords of all categories are
scanned before any generic keyword; first match wins; the fallback is
`technical`.  `isWatched` compares `matchedGlobalKeyword` against `null`
(`!== null`), while the generic branch's confidence/keyword choice and the
global-keyword fallback use JS *truthiness*, so a matched empty-string
global keyword watches the item but neither upgrades confidence nor
triggers the fallback.  (The source computes the global-keyword scan once
up front; `findGlobalKeyword` is pure, so calling it at each use is
equivalent.) -/
def FilterContext.classifySignalType {α : Type} (ctx : FilterContext) (item : Item α) :
    Classification :=
  match findExactHit ctx (itemText item).toList with
  | some (ty, kw) =>
    { type := ty, keywordConfidence := "high", matchedKeyword := some kw,
      isWatched := (findGlobalKeyword ctx (itemText item).toList).isSome }
  | none =>
    match findGenericHit ctx (itemText item).toList with
    | some (ty, kw) =>
      { type := ty,
        keywordConfidence :=
          if truthyStr (findGlobalKeyword ctx (itemText item).toList) then "high"
          else "medium",
        matchedKeyword :=
          if truthyStr (findGlobalKeyword ctx (itemText item).toList) then
            findGlobalKeyword ctx (itemText item).toList
          else some kw,
        isWatched := (findGlobalKeyword ctx (itemText item).toList).isSome }
    | none =>
      if truthyStr (findGlobalKeyword ctx (itemText item).toList) then
        { type := "technical", keywordConfidence := "high",
          matchedKeyword := findGlobalKeyword ctx (itemText item).toList, isWatched := true }
      else
        { type := "technical", keywordConfidence := "low",
          matchedKeyword := none, isWatched := false }

/-- Relevance-band confidence (`getConfidence`). -/
def getConfidence {α : Type} [LinearOrderedField α] (relevance : α) : String :=
  if 6/10 ≤ relevance then "high"
  else if 45/100 ≤ relevance then "medium"
  else "low"

/-- First match of `/\b[A-Za-z][a-z]{3,}\b/` in a character list: an ASCII
letter at a word boundary followed by a maximal run of at least three
lowercase letters ending at a word boundary. -/
def firstLongWord (cs : List Char) : Option (List Char) :=
  (List.range cs.length).findSome? (fun p =>
    if (p == 0 || !isWordChar (cs.getD (p - 1) ' ')) && (cs.getD p ' ').isAlpha then
      let run := ((cs.drop (p + 1)).takeWhile Char.isLower).length
      if 3 ≤ run && (decide (cs.length ≤ p + 1 + run) || !isWordChar (cs.getD (p + 1 + run) ' '))
      then some ((cs.drop p).take (run + 1)) else none
    else none)

/-- `extractTopic(item)`: first global keyword contained in the lowercased
text, else first context keyword, else the first capitalised-looking title
word, else a generic phrase. -/
def FilterContext.extractTopic {α : Type} (ctx : FilterContext) (item : Item α) : String :=
  let text := lowerL (itemText item).toList
  match ctx.userGlobalKeywords.find? (fun kw => strIncludes text kw.toList) with
  | some kw => kw
  | none =>
    match ctx.contextKeywords.find? (fun kw => strIncludes text kw.toList) with
    | some kw => kw
    | none =>
      match firstLongWord item.title.toList with
      | some w => String.mk (lowerL w)
      | none => "your interests"

/-- `generateReason`: one template sentence per category
(`templates[signalType] || templates.technical`). -/
def generateReason {α : Type} (signalType : String) (item : Item α) (ctx : FilterContext) :
    String :=
  let topic := ctx.extractTopic item
  if signalType = "competitive" then
    "Potential competitor or adjacent tool in the " ++ topic ++ " space"
  else if signalType = "thesis-challenging" then
    "May challenge assumptions about " ++ topic
  else if signalType = "opportunity" then
    "Potential opportunity in " ++ topic
  else if signalType = "trend" then
    "Emerging trend in " ++ topic
  else
    "Technical approach relevant to " ++ topic

/-! ## Scoring (`src/signal/scoring.js`)

`now` is the current time in milliseconds (`new Date()`); `rm` supplies
`Math.exp`/`Math.log(2)`.  The `isNaN(score)` guard of
`calculateEngagementScore` cannot fire in a field (division is total), so it
is not represented. -/

/-- `CONFIDENCE_SCORES`: high/medium/low to 100/70/40. -/
def CONFIDENCE_SCORES {α : Type} [LinearOrderedField α] (c : String) : Option α :=
  if c = "high" then some 100
  else if c = "medium" then some 70
  else if c = "low" then some 40
  else none

/-- `calculateRecencyScore(timestamp, halfLifeDays = 7)`: 50 for a missing
timestamp, else `100 * exp(-(log 2 / halfLifeDays) * ageDays)` clamped to
`[0, 100]`. -/
def calculateRecencyScore {α : Type} [LinearOrderedField α] (rm : RMath α) (now : α)
    (timestamp : Option α) (halfLifeDays : α) : α :=
  match timestamp with
  | none => 50
  | some ts =>
    let ageMs := now - ts
    let ageDays := ageMs / (msPerDay : α)
    let decayRate := rm.log2 / halfLifeDays
    let score := 100 * rm.exp (-(decayRate * ageDays))
    max 0 (min 100 score)

/-- `getRelevantTimestamp(item)` with the default (empty) custom field
mappings, as both call sites in the pipeline use it. -/
def getRelevantTimestamp {α : Type} [LinearOrderedField α] (item : Item α) : Option α :=
  let meta := item.metadata
  if item.source = "github" then meta.pushed_at <|> meta.updated_at <|> item.fetched_at
  else if item.source = "hackernews" then meta.created_at <|> item.fetched_at
  else if item.source = "reddit" then
    match meta.created_utc with
    | some u => some (u * 1000)
    | none => item.fetched_at
  else if item.source = "arxiv" then meta.published <|> item.fetched_at
  else item.fetched_at <|> item.timestamp <|> item.date

/-- A fully-populated engagement baseline (the spread of `DEFAULT_BASELINE`). -/
structure Baseline (α : Type) where
  stars : α
  forks : α
  points : α
  comments : α
  score : α
  reactions : α
  likes : α
  downloads : α
  votes : α
  citations : α
  deriving Repr

/-- A per-source override object (missing fields fall back to `DEFAULT_BASELINE`). -/
structure PartialBaseline (α : Type) where
  stars : Option α := none
  forks : Option α := none
  points : Option α := none
  comments : Option α := none
  score : Option α := none
  reactions : Option α := none
  likes : Option α := none
  downloads : Option α := none
  votes : Option α := none
  citations : Option α := none
  deriving Repr

/-- `DEFAULT_BASELINE`: every metric defaults to 1. -/
def DEFAULT_BASELINE {α : Type} [LinearOrderedField α] : Baseline α :=
  ⟨1, 1, 1, 1, 1, 1, 1, 1, 1, 1⟩

/-- `DEFAULT_ENGAGEMENT_BASELINES`, keyed by source name. -/
def DEFAULT_ENGAGEMENT_BASELINES {α : Type} [LinearOrderedField α] :
    String → Option (PartialBaseline α) := fun source =>
  if source = "github" then some { stars := some 1000, forks := some 100 }
  else if source = "hackernews" then some { points := some 100, comments := some 50 }
  else if source = "reddit" then some { score := some 100, comments := some 50 }
  else if source = "arxiv" then some { citations := some 10 }
  else if source = "lobsters" then some { score := some 20, comments := some 10 }
  else if source = "devto" then some { reactions := some 50, comments := some 20 }
  else if source = "huggingface" then some { likes := some 100, downloads := some 1000 }
  else if source = "producthunt" then some { votes := some 200, comments := some 50 }
  else none

/-- `{...DEFAULT_BASELINE, ...baseline}`. -/
def mergeBaseline {α : Type} (b : Baseline α) (p : PartialBaseline α) : Baseline α :=
  { stars := p.stars.getD b.stars, forks := p.forks.getD b.forks,
    points := p.points.getD b.points, comments := p.comments.getD b.comments,
    score := p.score.getD b.score, reactions := p.reactions.getD b.reactions,
    likes := p.likes.getD b.likes, downloads := p.downloads.getD b.downloads,
    votes := p.votes.getD b.votes, citations := p.citations.getD b.citations }

/-- `getBaseline(source, customBaselines)`. -/
def getBaseline {α : Type} [LinearOrderedField α]
    (customBaselines : String → Option (PartialBaseline α)) (source : String) : Baseline α :=
  mergeBaseline DEFAULT_BASELINE
    (((customBaselines source) <|> DEFAULT_ENGAGEMENT_BASELINES source).getD {})

/-- JS `x || y` on optional numbers: `x` unless it is absent or `0`. -/
def jsOr {α : Type} [LinearOrderedField α] [DecidableEq α] (x y : Option α) : Option α :=
  match x with
  | some v => if v = 0 then y else some v
  | none => y

/-- `calculateEngagementScore(item, customBaselines)`: per-source weighted
normalisation capped at 100 per metric, generic `likes-like / 10` fallback,
50 when nothing applies, final clamp to `[0, 100]`. -/
def calculateEngagementScore {α : Type} [LinearOrderedField α] [DecidableEq α]
    (item : Item α) (customBaselines : String → Option (PartialBaseline α)) : α :=
  let meta := item.metadata
  let baseline := getBaseline customBaselines item.source
  let score : α :=
    if item.source = "github" then
      let stars := meta.stars.getD 0
      let forks := meta.forks.getD 0
      let starScore := min 100 (stars / baseline.stars * 50)
      let forkScore := min 100 (forks / baseline.forks * 50)
      starScore * (7/10) + forkScore * (3/10)
    else if item.source = "hackernews" then
      let points := meta.points.getD 0
      let comments := meta.comments.getD 0
      let pointScore := min 100 (points / baseline.points * 50)
      let commentScore := min 100 (comments / baseline.comments * 50)
      pointScore * (6/10) + commentScore * (4/10)
    else if item.source = "reddit" then
      let upvotes := meta.score.getD 0
      let comments := meta.comments.getD 0
      let upvoteScore := min 100 (upvotes / baseline.score * 50)
      let commentScore := min 100 (comments / baseline.comments * 50)
      upvoteScore * (6/10) + commentScore * (4/10)
    else if item.source = "lobsters" then
      let points := meta.score.getD 0
      let comments := meta.comments.getD 0
      let pointScore := min 100 (points / baseline.score * 50)
      let commentScore := min 100 (comments / baseline.comments * 50)
      pointScore * (6/10) + commentScore * (4/10)
    else if item.source = "devto" then
      let reactions := meta.reactions.getD 0
      let comments := meta.comments.getD 0
      let reactionScore := min 100 (reactions / baseline.reactions * 50)
      let commentScore := min 100 (comments / baseline.comments * 50)
      reactionScore * (6/10) + commentScore * (4/10)
    else if item.source = "huggingface" then
      let likes := meta.likes.getD 0
      let downloads := meta.downloads.getD 0
      let likeScore := min 100 (likes / baseline.likes * 50)
      let downloadScore := min 100 (downloads / baseline.downloads * 50)
      likeScore * (5/10) + downloadScore * (5/10)
    else if item.source = "producthunt" then
      let votes := meta.votes.getD 0
      let comments := meta.comments.getD 0
      let voteScore := min 100 (votes / baseline.votes * 50)
      let commentScore := min 100 (comments / baseline.comments * 50)
      voteScore * (7/10) + commentScore * (3/10)
    else
      match jsOr (jsOr meta.likes meta.reactions) meta.upvotes with
      | some engagement => if engagement = 0 then 50 else min 100 (engagement / 10)
      | none => 50
  max 0 (min 100 score)

/-- Scoring options (`calculateSignalScore` / `scoreAndSortSignals`). -/
structure ScoreOptions (α : Type) [LinearOrderedField α] where
  relevanceWeight : α := 45/100
  recencyWeight : α := 35/100
  engagementWeight : α := 20/100
  engagementBaselines : String → Option (PartialBaseline α) := fun _ => none
  sortBy : String := "score"

/-- The rounded `scoreBreakdown` attached to a scored item. -/
structure ScoreBreakdown where
  relevance : ℤ
  recency : ℤ
  engagement : ℤ
  deriving Repr, DecidableEq

/-- `{...item, signalScore, scoreBreakdown}`. -/
structure ScoredItem (α : Type) where
  item : Item α
  signalScore : ℤ
  scoreBreakdown : ScoreBreakdown
  deriving Repr, DecidableEq

/-- The relevance component selected by `calculateSignalScore`: the item's
`filter_result.relevance_score` when present, else the confidence-band
fallback `CONFIDENCE_SCORES[confidence] || 70`. -/
def relevanceComponent {α : Type} [LinearOrderedField α] (item : Item α) : α :=
  match item.filter_result with
  | some fr =>
    match fr.relevance_score with
    | some r => r
    | none => (CONFIDENCE_SCORES (fr.confidence.getD "medium")).getD 70
  | none => (CONFIDENCE_SCORES "medium").getD 70

/-- `calculateSignalScore(item, options)`: the composite is
`Math.round(relevance*w_rel + recency*w_rec + engagement*w_eng)`; the
breakdown holds the three sub-scores rounded. -/
def calculateSignalScore {α : Type} [LinearOrderedField α] [FloorRing α] [DecidableEq α]
    (rm : RMath α) (now : α) (item : Item α) (options : ScoreOptions α) : ScoredItem α :=
  { item := item,
    signalScore := jround (relevanceComponent item * options.relevanceWeight
      + calculateRecencyScore rm now (getRelevantTimestamp item) 7 * options.recencyWeight
      + calculateEngagementScore item options.engagementBaselines * options.engagementWeight),
    scoreBreakdown :=
      { relevance := jround (relevanceComponent item),
        recency := jround (calculateRecencyScore rm now (getRelevantTimestamp item) 7),
        engagement := jround (calculateEngagementScore item options.engagementBaselines) } }

/-- Stable insertion of `x` into a descending-by-`key` list (JS `sort` with a
numeric comparator is stable in modern engines). -/
def insertDescBy {β : Type} (key : β → ℤ) (x : β) : List β → List β
  | [] => [x]
  | y :: ys => if key y < key x then x :: y :: ys else y :: insertDescBy key x ys

/-- Stable sort, descending by `key`. -/
def sortDescBy {β : Type} (key : β → ℤ) (l : List β) : List β :=
  l.foldr (insertDescBy key) []

/-- `scoreAndSortSignals(signals, options)`. -/
def scoreAndSortSignals {α : Type} [LinearOrderedField α] [FloorRing α] [DecidableEq α]
    (rm : RMath α) (now : α) (signals : List (Item α)) (options : ScoreOptions α) :
    List (ScoredItem α) :=
  let scoredSignals := signals.map (fun s => calculateSignalScore rm now s options)
  if options.sortBy = "recency" then sortDescBy (fun s => s.scoreBreakdown.recency) scoredSignals
  else if options.sortBy = "engagement" then
    sortDescBy (fun s => s.scoreBreakdown.engagement) scoredSignals
  else if options.sortBy = "relevance" then
    sortDescBy (fun s => s.scoreBreakdown.relevance) scoredSignals
  else sortDescBy (fun s => s.signalScore) scoredSignals

/-- `getRecencyLabel(timestamp)` at current time `now`. -/
def getRecencyLabel {α : Type} [LinearOrderedField α] [FloorRing α]
    (now : α) (timestamp : Option α) : String :=
  match timestamp with
  | none => "Unknown"
  | some ts =>
    let diffMs := now - ts
    let diffHours := diffMs / ((1000 * 60 * 60 : ℕ) : α)
    let diffDays := diffMs / (msPerDay : α)
    if diffHours < 1 then "Just now"
    else if diffHours < 24 then
      let h := ⌊diffHours⌋
      s!"{h}h ago"
    else if diffDays < 2 then "Yesterday"
    else if diffDays < 7 then
      let d := ⌊diffDays⌋
      s!"{d}d ago"
    else if diffDays < 14 then "Last week"
    else if diffDays < 30 then
      let w := ⌊diffDays / 7⌋
      s!"{w}w ago"
    else if diffDays < 60 then "Last month"
    else
      let mo := ⌊diffDays / 30⌋
      s!"{mo}mo ago"

/-! ## Embedding context (`src/signal/embeddings.js`)

The external embedding capability (`@xenova/transformers` pipeline) is an
injected `provider : String → Except ε (List α)`: it returns a vector or
fails.  `embed` additionally reports (as instrumentation) whether the
expensive `_computeEmbedding` call was performed, i.e. whether the cache
missed.  The source keys the cache by `hashString(text).toString(36)`;
`toString(36)` is injective on 32-bit integers, so the integer hash itself
is the faithful key. -/

def CHUNK_SIZE : ℕ := 1800
def CHUNK_OVERLAP : ℕ := 200

/-- Coerce to a signed 32-bit integer (JS `x & x` / `ToInt32`). -/
def toInt32 (n : ℤ) : ℤ := (n + 2 ^ 31) % 2 ^ 32 - 2 ^ 31

/-- One step of `hashString`: `hash = (((hash << 5) - hash) + char) & ...`. -/
def hashStep (h : ℤ) (c : Char) : ℤ := toInt32 (toInt32 (h * 32) - h + c.toNat)

/-- `hashString(str)`: the cheap 31x+c rolling hash over UTF-16 units
(code points and UTF-16 units agree on the Basic Multilingual Plane). -/
def hashString (s : String) : ℤ := s.toList.foldl hashStep 0

/-- The `LRUCache` of embeddings: entries in insertion order, oldest first. -/
structure LRUCache (ν : Type) where
  maxSize : ℕ
  cache : List (ℤ × ν)
  deriving Repr, DecidableEq

/-- `LRUCache.get`: on a hit, move the entry to the most-recent end and
return its value; a miss leaves the cache unchanged. -/
def LRUCache.get {ν : Type} (c : LRUCache ν) (k : ℤ) : Option ν × LRUCache ν :=
  match alookup k c.cache with
  | none => (none, c)
  | some v => (some v, { c with cache := aerase k c.cache ++ [(k, v)] })

/-- `LRUCache.set`: refresh an existing key in place at the recent end;
otherwise evict the oldest entry if the cache is full, then append. -/
def LRUCache.set {ν : Type} (c : LRUCache ν) (k : ℤ) (v : ν) : LRUCache ν :=
  if (alookup k c.cache).isSome then
    { c with cache := aerase k c.cache ++ [(k, v)] }
  else if c.maxSize ≤ c.cache.length then
    { c with cache := c.cache.drop 1 ++ [(k, v)] }
  else
    { c with cache := c.cache ++ [(k, v)] }

/-- Request-scoped `EmbeddingContext` state (context points omitted: no
claim touches `embedContextPoints`/`findBestMatchingPoint`). -/
structure EmbeddingContext (α : Type) where
  contextEmbedding : Option (List α) := none
  cache : LRUCache (List α)
  deriving Repr, DecidableEq

/-- `new EmbeddingContext({cacheSize})`. -/
def EmbeddingContext.mk0 {α : Type} (cacheSize : ℕ) : EmbeddingContext α :=
  { contextEmbedding := none, cache := { maxSize := cacheSize, cache := [] } }

/-- The overlapping-chunk split of `_computeEmbedding`: slices of
`CHUNK_SIZE` characters starting every `CHUNK_SIZE - CHUNK_OVERLAP`. -/
def chunkify (cs : List Char) : List (List Char) :=
  if h : cs.isEmpty then []
  else cs.take CHUNK_SIZE :: chunkify (cs.drop (CHUNK_SIZE - CHUNK_OVERLAP))
termination_by cs.length
decreasing_by
  have hne : cs ≠ [] := fun hnil => h (by simp [hnil])
  have h2 : 0 < CHUNK_SIZE - CHUNK_OVERLAP := by decide
  simpa [List.length_drop] using Nat.sub_lt (List.length_pos.mpr hne) h2

/-- `_computeEmbedding(text)`: embed directly below the chunk threshold;
otherwise embed each chunk, weight-average with geometric decay `0.8^idx`,
and re-normalise to unit length via `rm.sqrt`. -/
def computeEmbedding {α ε : Type} [LinearOrderedField α] (rm : RMath α)
    (provider : String → Except ε (List α)) (text : String) : Except ε (List α) :=
  if text.length ≤ CHUNK_SIZE then provider text
  else do
    let chunks := chunkify text.toList
    let embeddings ← chunks.mapM (fun ch => provider (String.mk ch))
    let weights := (List.range embeddings.length).map (fun idx => (8/10 : α) ^ idx)
    let totalWeight := weights.foldl (· + ·) 0
    let dim := (embeddings.headD []).length
    let avgEmbedding := (List.range dim).map (fun j =>
      (embeddings.zip weights).foldl
        (fun acc ew => acc + ew.1.getD j 0 * (ew.2 / totalWeight)) 0)
    let norm := rm.sqrt (avgEmbedding.foldl (fun a x => a + x * x) 0)
    pure (avgEmbedding.map (fun x => x / norm))

/-- `embed(text)`: content-addressed cache in front of `_computeEmbedding`.
The `Bool` is instrumentation: `true` iff the expensive computation ran. -/
def EmbeddingContext.embed {α ε : Type} [LinearOrderedField α] (rm : RMath α)
    (provider : String → Except ε (List α)) (st : EmbeddingContext α) (text : String) :
    Except ε (List α × EmbeddingContext α × Bool) :=
  match st.cache.get (hashString text) with
  | (some cached, cache') => .ok (cached, { st with cache := cache' }, false)
  | (none, _) =>
    match computeEmbedding rm provider text with
    | .error e => .error e
    | .ok embedding =>
      .ok (embedding, { st with cache := st.cache.set (hashString text) embedding }, true)

/-- `setContext(contextText)`. -/
def EmbeddingContext.setContext {α ε : Type} [LinearOrderedField α] (rm : RMath α)
    (provider : String → Except ε (List α)) (st : EmbeddingContext α) (contextText : String) :
    Except ε (EmbeddingContext α) :=
  match EmbeddingContext.embed rm provider st contextText with
  | .error e => .error e
  | .ok (emb, st', _) => .ok { st' with contextEmbedding := some emb }

/-- `cosineSimilarity(a, b)`: `dot/(||a||*||b||)` clamped to `[-1, 1]`,
`0` when a magnitude is zero.  The source loops over `a.length`; an index
beyond a vector reads as `0`. -/
def cosineSimilarity {α : Type} [LinearOrderedField α] [DecidableEq α]
    (rm : RMath α) (a b : List α) : α :=
  let dotProduct := (List.range a.length).foldl (fun acc i => acc + a.getD i 0 * b.getD i 0) 0
  let normA := (List.range a.length).foldl (fun acc i => acc + a.getD i 0 * a.getD i 0) 0
  let normB := (List.range a.length).foldl (fun acc i => acc + b.getD i 0 * b.getD i 0) 0
  let magnitude := rm.sqrt normA * rm.sqrt normB
  if magnitude = 0 then 0
  else max (-1) (min 1 (dotProduct / magnitude))

/-- Errors of the similarity engine: missing baseline (`setContext` not
called) or a provider failure. -/
inductive EmbedError (ε : Type) where
  | contextNotSet
  | provider (e : ε)
  deriving Repr, DecidableEq

/-- The text `getRelevanceScore` embeds for an item:
`` `${item.title || ''} ${item.description || ''}`.trim() ``. -/
def itemKey {α : Type} (item : Item α) : String :=
  jsTrim (item.title ++ " " ++ item.description)

/-- `getRelevanceScore(item)`: precondition error without a baseline; `0`
for an item with empty combined text; otherwise cosine similarity between
the item embedding and the context embedding.  The `Bool` is `embed`'s
instrumentation flag. -/
def EmbeddingContext.getRelevanceScore {α ε : Type} [LinearOrderedField α] [DecidableEq α]
    (rm : RMath α)
    (provider : String → Except ε (List α)) (st : EmbeddingContext α) (item : Item α) :
    Except (EmbedError ε) (α × EmbeddingContext α × Bool) :=
  match st.contextEmbedding with
  | none => .error .contextNotSet
  | some ctxEmb =>
    let text := itemKey item
    if text = "" then .ok (0, st, false)
    else
      match EmbeddingContext.embed rm provider st text with
      | .error e => .error (.provider e)
      | .ok (itemEmbedding, st', computed) =>
        .ok (cosineSimilarity rm ctxEmb itemEmbedding, st', computed)

/-- `batchRelevanceScores(items, {concurrency})`, sequentialised: the JS
version awaits `Promise.all` over fixed-size groups, merging per-item
results into one map in array order; a single rejected promise rejects the
whole call.  Grouping does not change the merged map, so the model
processes items in order, accumulating the scores map. -/
def EmbeddingContext.batchRelevanceScoresAux {α ε : Type} [LinearOrderedField α]
    [DecidableEq α] (rm : RMath α)
    (provider : String → Except ε (List α)) (st : EmbeddingContext α)
    (scores : List (String × α)) :
    List (Item α) → Except (EmbedError ε) (List (String × α) × EmbeddingContext α)
  | [] => .ok (scores, st)
  | item :: rest =>
    match EmbeddingContext.getRelevanceScore rm provider st item with
    | .error e => .error e
    | .ok (score, st', _) =>
      EmbeddingContext.batchRelevanceScoresAux rm provider st' (aset item.id score scores) rest

/-- `batchRelevanceScores` proper (empty initial map). -/
def EmbeddingContext.batchRelevanceScores {α ε : Type} [LinearOrderedField α]
    [DecidableEq α] (rm : RMath α)
    (provider : String → Except ε (List α)) (st : EmbeddingContext α) (items : List (Item α)) :
    Except (EmbedError ε) (List (String × α) × EmbeddingContext α) :=
  EmbeddingContext.batchRelevanceScoresAux rm provider st [] items

/-- The synchronous prefix of one relevance promise, up to its first
suspension: `skip` for an empty combined text (score `0`, no cache
interaction), `hit v` when `this.cache.get(hash)` found `v`, `miss` when
the hash was absent at the moment the promise started. -/
inductive EmbedPlan (α : Type) where
  | skip
  | hit (v : List α)
  | miss
  deriving Repr, DecidableEq

/-- The plan an item's promise commits to against the cache state `c`. -/
def planOf {α : Type} (c : LRUCache (List α)) (item : Item α) : EmbedPlan α :=
  if itemKey item = "" then EmbedPlan.skip
  else
    match alookup (hashString (itemKey item)) c.cache with
    | some v => EmbedPlan.hit v
    | none => EmbedPlan.miss

/-- The synchronous start phase of one `Promise.all` group of
`batchRelevanceScores`: `batch.map` starts every promise in array order,
and each runs `getRelevanceScore`/`embed` as far as
`this.cache.get(hash)` — refreshing the LRU recency on a hit — before any
suspended `_computeEmbedding` call resolves, so none of this group's
`cache.set` calls is visible to these lookups. -/
def groupStarts {α : Type} :
    LRUCache (List α) → List (Item α) → LRUCache (List α) × List (Item α × EmbedPlan α)
  | c, [] => (c, [])
  | c, item :: rest =>
    if itemKey item = "" then
      ((groupStarts c rest).1, (item, EmbedPlan.skip) :: (groupStarts c rest).2)
    else
      match c.get (hashString (itemKey item)) with
      | (some v, c') =>
        ((groupStarts c' rest).1, (item, EmbedPlan.hit v) :: (groupStarts c' rest).2)
      | (none, c') =>
        ((groupStarts c' rest).1, (item, EmbedPlan.miss) :: (groupStarts c' rest).2)

/-- The resolution phase of one group: every miss runs `_computeEmbedding`
on its own text — two identical texts in one group each run it — and, on
resolution, inserts the result (`this.cache.set`); one rejected promise
rejects the whole `Promise.all`.  Resolutions are modelled in array
order. -/
def groupFinish {α ε : Type} [LinearOrderedField α] [DecidableEq α] (rm : RMath α)
    (provider : String → Except ε (List α)) (ce : List α) :
    LRUCache (List α) → List (Item α × EmbedPlan α) →
    Except ε (List (String × α × Bool) × LRUCache (List α))
  | c, [] => .ok ([], c)
  | c, (item, EmbedPlan.skip) :: rest =>
    match groupFinish rm provider ce c rest with
    | .error e => .error e
    | .ok (out, cF) => .ok ((item.id, 0, false) :: out, cF)
  | c, (item, EmbedPlan.hit v) :: rest =>
    match groupFinish rm provider ce c rest with
    | .error e => .error e
    | .ok (out, cF) => .ok ((item.id, cosineSimilarity rm ce v, false) :: out, cF)
  | c, (item, EmbedPlan.miss) :: rest =>
    match computeEmbedding rm provider (itemKey item) with
    | .error e => .error e
    | .ok emb =>
      match groupFinish rm provider ce (c.set (hashString (itemKey item)) emb) rest with
      | .error e => .error e
      | .ok (out, cF) => .ok ((item.id, cosineSimilarity rm ce emb, true) :: out, cF)

/-- The group loop of `batchRelevanceScores`
(`for (…; i += concurrency)`): each group runs all its synchronous starts,
then all its resolutions; the next group begins only after its
`Promise.all` resolves. -/
def runGroups {α ε : Type} [LinearOrderedField α] [DecidableEq α] (rm : RMath α)
    (provider : String → Except ε (List α)) (ce : List α)
    (conc : ℕ) (hc : 0 < conc) :
    LRUCache (List α) → List (Item α) →
    Except ε (List (String × α × Bool) × LRUCache (List α))
  | c, [] => .ok ([], c)
  | c, item :: rest =>
    match groupFinish rm provider ce (groupStarts c ((item :: rest).take conc)).1
        (groupStarts c ((item :: rest).take conc)).2 with
    | .error e => .error e
    | .ok (outG, cB) =>
      match runGroups rm provider ce conc hc cB ((item :: rest).drop conc) with
      | .error e => .error e
      | .ok (outR, cF) => .ok (outG ++ outR, cF)
termination_by c items => items.length
decreasing_by
  simp only [List.length_drop, List.length_cons]
  omega

/-- `batchRelevanceScores(items, {concurrency})` with its `Promise.all`
concurrency groups made explicit and `embed`'s computed-flag
instrumentation recorded per item, position-aligned with `items`
(`batchRelevanceScores` itself folds exactly these per-item scores into
its id-keyed map).  Every promise checks the context embedding first. -/
def EmbeddingContext.batchRelevanceRun {α ε : Type} [LinearOrderedField α] [DecidableEq α]
    (rm : RMath α) (provider : String → Except ε (List α))
    (conc : ℕ) (hc : 0 < conc) (st : EmbeddingContext α) (items : List (Item α)) :
    Except (EmbedError ε) (List (String × α × Bool) × EmbeddingContext α) :=
  match st.contextEmbedding with
  | none => if items.isEmpty then .ok ([], st) else .error .contextNotSet
  | some ce =>
    match runGroups rm provider ce conc hc st.cache items with
    | .error e => .error (.provider e)
    | .ok (out, cacheF) => .ok (out, { st with cache := cacheF })

/-- Keys currently present in an LRU cache, oldest first. -/
def LRUCache.keys {ν : Type} (c : LRUCache ν) : List ℤ := c.cache.map Prod.fst

/-- Invariant of one run's embedding cache: keys are distinct and drawn from
the finite hash budget `H`. -/
def CacheInv {α : Type} (H : Finset ℤ) (st : EmbeddingContext α) : Prop :=
  st.cache.keys.Nodup ∧ ∀ k ∈ st.cache.keys, k ∈ H

/-- How many times the expensive embedding computation ran for items whose
combined text is `t`, in an instrumented `batchRelevanceRun` output. -/
def computedCount {α : Type} (items : List (Item α)) (out : List (String × α × Bool))
    (t : String) : ℕ :=
  ((items.zip out).filter (fun pr => decide (itemKey pr.1 = t) && pr.2.2.2)).length

/-- Invariant of the request-scoped cache during one batch run: distinct
keys drawn from the run's hash budget `H` (which fits the capacity), each
entry holding the expensive computation's result for one of the run's
nonempty texts. -/
def GCacheInv {α ε : Type} [LinearOrderedField α] (rm : RMath α)
    (provider : String → Except ε (List α)) (texts : List String) (H : Finset ℤ)
    (c : LRUCache (List α)) : Prop :=
  c.keys.Nodup ∧ (∀ k ∈ c.keys, k ∈ H) ∧ H.card ≤ c.maxSize ∧
  ∀ p ∈ c.cache, ∃ t ∈ texts, t ≠ "" ∧ hashString t = p.1 ∧
    computeEmbedding rm provider t = .ok p.2

/-! ## Filter pipeline (`filterItems` in `src/signal/filter.js`)

The two regex miners of the context document
(`parseContextForSignalKeywords`, `extractContextKeywords`) are passed as
pure parameters `parse`/`extractKw` (see `setSignalKeywords`); all pipeline
claims hold for arbitrary parsers.  `verbose` logging and the run-local
`sourceStats` (used only for logging) are not modelled.  A missing or
non-string `context` is `none`; `new Date()` is the parameter `now`. -/

def DEFAULT_RELEVANCE_THRESHOLD {α : Type} [LinearOrderedField α] : α := 30/100
def DEFAULT_NOVELTY_THRESHOLD {α : Type} [LinearOrderedField α] : α := 1/2

/-- Run-level failures of `filterItems`: the context input error, or an
embedding-layer error (provider failure / missing baseline). -/
inductive FilterError (ε : Type) where
  | contextRequired
  | embed (e : EmbedError ε)
  deriving Repr, DecidableEq

/-- The metadata `filterItems` passes to `markSeen`: `{title, source}`. -/
structure TrackerMeta where
  title : String
  source : String
  deriving Repr, DecidableEq

/-- Options of `filterItems` (concurrency width and verbosity do not affect
the sequential model's results). -/
structure FilterOptions (α : Type) [LinearOrderedField α] where
  relevanceThreshold : α := DEFAULT_RELEVANCE_THRESHOLD
  noveltyThreshold : α := DEFAULT_NOVELTY_THRESHOLD
  userKeywords : UserKeywords := {}
  noveltyTracker : Option (NoveltyTracker α TrackerMeta) := none
  embeddingContext : Option (EmbeddingContext α) := none
  existingIds : List String := []

/-- A final pipeline output item: the scored item plus the added `score`
alias and `recencyLabel`. -/
structure FinalItem (α : Type) where
  scored : ScoredItem α
  score : ℤ
  recencyLabel : String
  deriving Repr, DecidableEq

/-- Result of a `filterItems` run: the ranked list plus the final states of
the run-local `FilterContext` and of the caller's `NoveltyTracker` (both are
mutated in place in the source and observable by the caller). -/
structure FilterOutput (α : Type) where
  results : List (FinalItem α)
  filterCtx : FilterContext
  noveltyTracker : Option (NoveltyTracker α TrackerMeta)
  deriving DecidableEq

/-- The per-item threshold/marking loop of `filterItems`: novelty is read
before `markSeen`; both the tracker and the run-local seen set are marked
for every valid item; only items passing both thresholds are classified and
collected. -/
def filterLoop {α : Type} [LinearOrderedField α] [FloorRing α] [DecidableEq α]
    [∀ a b : α, Decidable (a ≤ b)] [∀ a b : α, Decidable (a < b)] (rm : RMath α)
    (relevanceThreshold noveltyThreshold now : α) (relevanceScores : List (String × α)) :
    FilterContext → Option (NoveltyTracker α TrackerMeta) → List (Item α) →
    List (Item α) × FilterContext × Option (NoveltyTracker α TrackerMeta)
  | fctx, tracker, [] => ([], fctx, tracker)
  | fctx, tracker, item :: rest =>
    let relevance := (alookup item.id relevanceScores).getD 0
    let novelty : α :=
      match tracker with
      | some t => t.getNoveltyScore rm item.id now
      | none => fctx.getNoveltyScore item.id
    let tracker' := tracker.map (fun t =>
      t.markSeen item.id { title := item.title, source := item.source } now)
    let fctx' := fctx.markSeen item.id
    let passesRelevance : Bool := decide (relevanceThreshold ≤ relevance)
    let passesNovelty : Bool :=
      match tracker with
      | some _ => decide (noveltyThreshold ≤ novelty)
      | none => decide (0 < novelty)
    let step := filterLoop rm relevanceThreshold noveltyThreshold now relevanceScores
      fctx' tracker' rest
    ((if passesRelevance && passesNovelty then
        let classification := fctx'.classifySignalType item
        let relevanceConfidence := getConfidence relevance
        let reason := generateReason classification.type item fctx'
        let newItem : Item α :=
          { item with
              filter_result := some
                { signal_type := classification.type,
                  confidence := some relevanceConfidence,
                  keyword_confidence := classification.keywordConfidence,
                  matched_keyword := classification.matchedKeyword,
                  is_watched := classification.isWatched,
                  reason := reason,
                  relevance_score := some ((jround (relevance * 100) : ℤ) : α),
                  novelty_score := some ((jround (novelty * 100) : ℤ) : α) },
              filtered_at := some now }
        newItem :: step.1
      else step.1), step.2)

/-- `filterItems(items, context, options)`.  Empty/missing `items` return an
empty result immediately (before any validation of `context`); an empty or
non-string `context` is the hard error; items without an id are dropped;
then the pipeline embeds the context, scores relevance in batch, applies
both thresholds while marking everything seen, flushes the tracker, and
scores/sorts/labels the survivors. -/
def filterItems {α ε : Type} [LinearOrderedField α] [FloorRing α] [DecidableEq α]
    [∀ a b : α, Decidable (a ≤ b)] [∀ a b : α, Decidable (a < b)] (rm : RMath α)
    (provider : String → Except ε (List α))
    (parse : String → String → KeywordSet) (extractKw : String → List String)
    (now : α) (items : Option (List (Item α))) (context : Option String)
    (options : FilterOptions α) : Except (FilterError ε) (FilterOutput α) :=
  if (items.getD []).isEmpty then
    .ok { results := [], filterCtx := FilterContext.init options.existingIds,
          noveltyTracker := options.noveltyTracker }
  else if context.getD "" = "" then
    .error .contextRequired
  else
    let ctx := context.getD ""
    let validItems := (items.getD []).filter (fun item => item.id ≠ "")
    if validItems.isEmpty then
      .ok { results := [], filterCtx := FilterContext.init options.existingIds,
            noveltyTracker := options.noveltyTracker }
    else
      let embeddingCtx := options.embeddingContext.getD (EmbeddingContext.mk0 1000)
      match EmbeddingContext.setContext rm provider embeddingCtx ctx with
      | .error e => .error (.embed (.provider e))
      | .ok st1 =>
        let fctx :=
          ((FilterContext.init options.existingIds).setSignalKeywords parse ctx
            options.userKeywords).setContextKeywords extractKw ctx
        let tracker0 := options.noveltyTracker.map (fun t =>
          t.loadBatch (validItems.map (fun i => i.id)))
        match EmbeddingContext.batchRelevanceScores rm provider st1 validItems with
        | .error e => .error (.embed e)
        | .ok (relevanceScores, _) =>
          let looped := filterLoop rm options.relevanceThreshold options.noveltyThreshold
            now relevanceScores fctx tracker0 validItems
          let trackerFlushed := looped.2.2.map (fun t => t.flush.1)
          let scoredItems := scoreAndSortSignals rm now looped.1 { sortBy := "score" }
          let itemsWithLabels := scoredItems.map (fun s =>
            ({ scored := s, score := s.signalScore,
               recencyLabel := getRecencyLabel now (getRelevantTimestamp s.item) } : FinalItem α))
          .ok { results := itemsWithLabels, filterCtx := looped.2.1,
                noveltyTracker := trackerFlushed }

/-! ## Concrete instances used in witnesses and counterexamples -/

/-- A concrete `Math` instantiation over `ℚ` (claims quantify over `rm`). -/
def rmQ : RMath ℚ := { exp := fun _ => 1, sqrt := fun _ => 1, log2 := 1 }

/-- A `Math` instantiation over `ℚ` whose `sqrt` is the zero function, so
cosine similarity takes its zero-magnitude branch (claims quantify over
`rm`; this keeps concrete runs free of `ℚ` division). -/
def rm0 : RMath ℚ := { exp := fun _ => 1, sqrt := fun _ => 0, log2 := 1 }

/-- The real `Math` primitives: `Real.exp`, `Real.sqrt`, `Real.log 2`. -/
noncomputable def realRM : RMath ℝ :=
  { exp := Real.exp, sqrt := Real.sqrt, log2 := Real.log 2 }

/-- A provider embedding every text as the one-element vector of its length. -/
def provLen : String → Except Unit (List ℚ) := fun t => .ok [(t.length : ℚ)]

/-- A provider embedding every text as `[1]`. -/
def provOne : String → Except Unit (List ℚ) := fun _ => .ok [1]

/-- A provider that fails on the text "bad" and succeeds elsewhere. -/
def provFailBad : String → Except Unit (List ℚ) :=
  fun t => if t = "bad" then .error () else .ok [1]

/-- An item carrying an out-of-range stored relevance sub-score. -/
def item200 : Item ℚ := { id := "x", filter_result := some { relevance_score := some 200 } }

/-- An item carrying an in-range stored relevance sub-score. -/
def item80 : Item ℚ := { id := "x", filter_result := some { relevance_score := some 80 } }

def itemGood : Item ℚ := { id := "i1", title := "good" }
def itemBad : Item ℚ := { id := "i2", title := "bad" }

/-- An embedding context with its baseline set and default cache size. -/
def ctxStQ : EmbeddingContext ℚ :=
  { contextEmbedding := some [1], cache := { maxSize := 1000, cache := [] } }

/-- An embedding context with its baseline set and an LRU capacity of one. -/
def ctxStCap1 : EmbeddingContext ℚ :=
  { contextEmbedding := some [1], cache := { maxSize := 1, cache := [] } }

/-- Three items whose first and third share their text. -/
def itemsABA : List (Item ℚ) :=
  [{ id := "1", title := "a" }, { id := "2", title := "b" }, { id := "3", title := "a" }]

/-- An ample-capacity embedding context (capacity 10, baseline set). -/
def stAmple : EmbeddingContext ℚ :=
  { contextEmbedding := some [1], cache := { maxSize := 10, cache := [] } }

/-- Two items with the same text, landing in one default-width group. -/
def itemsAA : List (Item ℚ) :=
  [{ id := "1", title := "a" }, { id := "2", title := "a" }]

/-- The texts "Aa" and "BB" collide under the 31x+c rolling hash; the first
and third items share their text. -/
def itemsColl : List (Item ℚ) :=
  [{ id := "1", title := "Aa" }, { id := "2", title := "BB" }, { id := "3", title := "Aa" }]

/-- A provider distinguishing the two colliding texts. -/
def provColl : String → Except Unit (List ℚ) :=
  fun t => .ok (if t = "Aa" then [1] else [-1])

/-- Output of the same-group duplicate run (default concurrency 10). -/
def outAA : List (String × ℚ × Bool) × EmbeddingContext ℚ :=
  (EmbeddingContext.batchRelevanceRun rmQ provOne 10 (by decide) stAmple itemsAA
    ).toOption.getD ([], stAmple)

/-- Output of the eviction run (capacity 1, sequential groups). -/
def outABA : List (String × ℚ × Bool) × EmbeddingContext ℚ :=
  (EmbeddingContext.batchRelevanceRun rm0 provOne 1 (by decide) ctxStCap1 itemsABA
    ).toOption.getD ([], ctxStCap1)

/-- Output of the hash-collision run (concurrency 2, ample capacity). -/
def outColl : List (String × ℚ × Bool) × EmbeddingContext ℚ :=
  (EmbeddingContext.batchRelevanceRun rmQ provColl 2 (by decide) stAmple itemsColl
    ).toOption.getD ([], stAmple)

/-- An ample sequential context for the witness run. -/
def stSeq : EmbeddingContext ℚ :=
  { contextEmbedding := some [1], cache := { maxSize := 1000, cache := [] } }

/-- Output of the witness run: concurrency 1, ample capacity. -/
def outSeq : List (String × ℚ × Bool) × EmbeddingContext ℚ :=
  (EmbeddingContext.batchRelevanceRun rm0 provOne 1 (by decide) stSeq itemsABA
    ).toOption.getD ([], stSeq)

/-- A concrete context for the classifier witnesses: an earlier-listed
category (`competitive`) with a matching *generic* keyword and a later
category (`technical`) with a matching *exact* keyword. -/
def ctxC6 : FilterContext :=
  { seenIds := [], contextKeywords := [],
    signalKeywords :=
      [("competitive", { generic := ["alternative"] }),
       ("technical", { exact := ["rust"] })],
    userGlobalKeywords := [] }

def itemC6 : Item ℚ := { id := "c", title := "An alternative in Rust", description := "" }

/-- A context whose only user global keyword is the empty string
(`userKeywords.global = ['']` flows through `setSignalKeywords` unchanged). -/
def ctxC7 : FilterContext :=
  { seenIds := [], contextKeywords := [], signalKeywords := [],
    userGlobalKeywords := [""] }

/-- An item with empty title and description: its classifier text is the
single space `title + ' ' + description`, which the empty keyword matches
(`indexOf('') === 0` with a non-word neighbour). -/
def itemC7 : Item ℚ := { id := "e" }

/-- A keyword parser mining nothing (pipeline claims hold for any parser). -/
def parse0 : String → String → KeywordSet := fun _ _ => {}

/-- A context-keyword extractor mining nothing. -/
def extract0 : String → List String := fun _ => []

/-- One valid item for the full-pipeline run. -/
def itemC10 : Item ℚ := { id := "i1", title := "t" }

/-- Options of the full-pipeline run: a relevance threshold of `2` no score
can reach (scores are clamped to `[-1, 1]`), so the item is dropped, and a
fresh `NoveltyTracker`. -/
def optsC10 : FilterOptions ℚ :=
  { relevanceThreshold := 2, noveltyThreshold := 0,
    noveltyTracker := some (NoveltyTracker.init 7 0) }

/-- A complete `filterItems` run over one valid item that fails the
relevance threshold. -/
def runC10 : Except (FilterError Unit) (FilterOutput ℚ) :=
  filterItems rm0 provOne parse0 extract0 0 (some [itemC10]) (some "c") optsC10

/-- The (successful) output of `runC10`. -/
def outC10 : FilterOutput ℚ :=
  runC10.toOption.getD
    { results := [], filterCtx := FilterContext.init [], noveltyTracker := none }

/-! ## Helper lemmas -/

theorem alookup_aset_self {κ ν : Type} [DecidableEq κ] (k : κ) (v : ν) (l : List (κ × ν)) :
    alookup k (aset k v l) = some v := by
  induction l with
  | nil => simp [aset, alookup]
  | cons p rest ih => by_cases h : p.1 = k <;> simp [aset, alookup, h, ih]

theorem alookup_aset_ne {κ ν : Type} [DecidableEq κ] {k k' : κ} (v : ν) (l : List (κ × ν))
    (h : k ≠ k') : alookup k' (aset k v l) = alookup k' l := by
  induction l with
  | nil => simp [aset, alookup, h]
  | cons p rest ih =>
    by_cases hp : p.1 = k
    · simp [aset, alookup, hp, h]
    · by_cases hp' : p.1 = k' <;> simp [aset, alookup, hp, hp', ih, Ne.symm h]

theorem mem_aset {κ ν : Type} [DecidableEq κ] {k : κ} {v : ν} {l : List (κ × ν)} {p : κ × ν}
    (hp : p ∈ aset k v l) : p = (k, v) ∨ p ∈ l := by
  induction l with
  | nil => simpa [aset] using hp
  | cons q rest ih =>
    by_cases hq : q.1 = k
    · rcases (by simpa [aset, hq] using hp : p = (k, v) ∨ p ∈ rest) with h | h
      · exact Or.inl h
      · exact Or.inr (List.mem_cons_of_mem q h)
    · rcases (by simpa [aset, hq] using hp : p = q ∨ p ∈ aset k v rest) with h | h
      · exact Or.inr (by simp [h])
      · rcases ih h with h' | h'
        · exact Or.inl h'
        · exact Or.inr (List.mem_cons_of_mem q h')

/-- `Math.round` differs from its argument by at most one half. -/
theorem jround_sub_le {α : Type} [LinearOrderedField α] [FloorRing α] (x : α) :
    |(jround x : α) - x| ≤ 1 / 2 := by
  rw [abs_le]
  have h1 := Int.lt_floor_add_one (x + 1 / 2)
  have h2 := Int.floor_le (x + 1 / 2)
  unfold jround
  constructor <;> push_cast at * <;> linarith

theorem jround_nonneg {α : Type} [LinearOrderedField α] [FloorRing α] {x : α} (h : 0 ≤ x) :
    0 ≤ jround x := by
  unfold jround
  exact Int.le_floor.mpr (by push_cast; linarith)

theorem jround_le_100 {α : Type} [LinearOrderedField α] [FloorRing α] {x : α} (h : x ≤ 100) :
    jround x ≤ 100 := by
  unfold jround
  have : ⌊x + 1 / 2⌋ < 101 := Int.floor_lt.mpr (by push_cast; linarith)
  omega

/-- `calculateRecencyScore` always lands in `[0, 100]`, whatever `exp` does. -/
theorem calculateRecencyScore_mem {α : Type} [LinearOrderedField α] (rm : RMath α)
    (now : α) (ts : Option α) (halfLife : α) :
    0 ≤ calculateRecencyScore rm now ts halfLife ∧
      calculateRecencyScore rm now ts halfLife ≤ 100 := by
  cases ts with
  | none => constructor <;> norm_num [calculateRecencyScore]
  | some t =>
    constructor
    · exact le_max_left 0 _
    · exact max_le (by norm_num) (min_le_left _ _)

/-- `calculateEngagementScore` always lands in `[0, 100]`. -/
theorem calculateEngagementScore_mem {α : Type} [LinearOrderedField α] [DecidableEq α]
    (item : Item α)
    (cb : String → Option (PartialBaseline α)) :
    0 ≤ calculateEngagementScore item cb ∧ calculateEngagementScore item cb ≤ 100 := by
  obtain ⟨x, hx⟩ : ∃ x, calculateEngagementScore item cb = max 0 (min 100 x) := ⟨_, rfl⟩
  rw [hx]
  exact ⟨le_max_left 0 _, max_le (by norm_num) (min_le_left _ _)⟩

/-! ## Claim C4 -/

/-- **C4, counterexample.**  With a nonempty, valid context, `filterItems`
on an empty or missing `items` argument returns a *successful* empty result:
it does not fail the run as the claim states. -/
theorem filterItems_empty_items_succeeds :
    filterItems rmQ provLen (fun _ _ => {}) (fun _ => []) 0 (some []) (some "## Competitors") {} =
      .ok { results := [], filterCtx := FilterContext.init [], noveltyTracker := none } ∧
    (filterItems rmQ provLen (fun _ _ => {}) (fun _ => []) 0 none (some "## Competitors")
        {}).isOk = true :=
  ⟨rfl, rfl⟩

/-- **C4, amended.**  Empty or missing `items` yield an immediate successful
empty result (nothing partial, states untouched) — this branch precedes even
the context check; the hard input error is reserved for an empty (or
non-string, modelled as `none`) context when items are present. -/
theorem filterItems_input_validation {α ε : Type} [LinearOrderedField α] [FloorRing α]
    [DecidableEq α] [∀ a b : α, Decidable (a ≤ b)] [∀ a b : α, Decidable (a < b)]
    (rm : RMath α) (provider : String → Except ε (List α))
    (parse : String → String → KeywordSet) (extractKw : String → List String)
    (now : α) (options : FilterOptions α) :
    (∀ (items : Option (List (Item α))) (context : Option String),
      items = none ∨ items = some [] →
      filterItems rm provider parse extractKw now items context options =
        .ok { results := [], filterCtx := FilterContext.init options.existingIds,
              noveltyTracker := options.noveltyTracker }) ∧
    (∀ (l : List (Item α)) (context : Option String), l ≠ [] →
      context = none ∨ context = some "" →
      filterItems rm provider parse extractKw now (some l) context options =
        .error .contextRequired) := by
  constructor
  · rintro items context (rfl | rfl) <;> rfl
  · rintro l context hl (rfl | rfl) <;>
      simp [filterItems, List.isEmpty_iff, hl]

/-- Witness for `filterItems_input_validation` at concrete inputs. -/
theorem filterItems_input_validation_witness :
    filterItems rmQ provLen (fun _ _ => {}) (fun _ => []) 0 none (some "ctx") {} =
      .ok { results := [], filterCtx := FilterContext.init [], noveltyTracker := none } ∧
    filterItems rmQ provLen (fun _ _ => {}) (fun _ => []) 0 (some [itemGood]) (some "") {} =
      .error .contextRequired :=
  ⟨(filterItems_input_validation rmQ provLen (fun _ _ => {}) (fun _ => []) 0 {}).1
      none (some "ctx") (Or.inl rfl),
   (filterItems_input_validation rmQ provLen (fun _ _ => {}) (fun _ => []) 0 {}).2
      [itemGood] (some "") (by simp) (Or.inr rfl)⟩

/-! ## Claim C2 -/

/-- **C2, counterexample.**  `calculateSignalScore` applies no clamp to the
composite: an item whose stored relevance sub-score is `200` (recency and
engagement both defaulting to 50) gets composite
`round(200*0.45 + 50*0.35 + 50*0.20) = 118 ∉ [0, 100]`. -/
theorem calculateSignalScore_not_clamped :
    (calculateSignalScore rmQ 0 item200 {}).signalScore = 118 ∧
    ¬ (calculateSignalScore rmQ 0 item200 {}).signalScore ≤ 100 := by
  have heng : calculateEngagementScore item200 (fun _ => (none : Option (PartialBaseline ℚ))) =
      50 := by
    simp +decide [calculateEngagementScore, item200, jsOr]
  have hrec : calculateRecencyScore rmQ 0 (getRelevantTimestamp item200) 7 = 50 := by
    simp +decide [calculateRecencyScore, getRelevantTimestamp, item200]
  have hrel : relevanceComponent item200 = 200 := by simp [relevanceComponent, item200]
  have h : (calculateSignalScore rmQ 0 item200 {}).signalScore = 118 := by
    show jround (relevanceComponent item200 * (45 / 100 : ℚ) +
      calculateRecencyScore rmQ 0 (getRelevantTimestamp item200) 7 * (35 / 100) +
      calculateEngagementScore item200 (fun _ => none) * (20 / 100)) = 118
    rw [hrel, hrec, heng]
    unfold jround
    rw [show (200 : ℚ) * (45 / 100) + 50 * (35 / 100) + 50 * (20 / 100) + 1 / 2 = 118 by
      norm_num]
    rw [show ((118 : ℚ)) = ((118 : ℤ) : ℚ) by norm_num, Int.floor_intCast]
  refine ⟨h, by rw [h]; norm_num⟩

/-- **C2, amended.**  The composite equals the weighted sum of the three raw
sub-scores rounded to the nearest integer, with *no* clamp.  Whenever the
weights are nonnegative and sum to 1 (as the defaults do) and the selected
relevance component lies in `[0, 100]`, the composite is an integer in
`[0, 100]`; and the weighted sum of the rounded `scoreBreakdown` sub-scores
always differs from the composite by at most 1. -/
theorem calculateSignalScore_composite {α : Type} [LinearOrderedField α] [FloorRing α]
    [DecidableEq α]
    (rm : RMath α) (now : α) (item : Item α) (options : ScoreOptions α)
    (hw1 : 0 ≤ options.relevanceWeight) (hw2 : 0 ≤ options.recencyWeight)
    (hw3 : 0 ≤ options.engagementWeight)
    (hsum : options.relevanceWeight + options.recencyWeight + options.engagementWeight = 1)
    (hrel : 0 ≤ relevanceComponent item ∧ relevanceComponent item ≤ 100) :
    (calculateSignalScore rm now item options).signalScore =
      jround (relevanceComponent item * options.relevanceWeight +
        calculateRecencyScore rm now (getRelevantTimestamp item) 7 * options.recencyWeight +
        calculateEngagementScore item options.engagementBaselines * options.engagementWeight) ∧
    0 ≤ (calculateSignalScore rm now item options).signalScore ∧
    (calculateSignalScore rm now item options).signalScore ≤ 100 ∧
    |(((calculateSignalScore rm now item options).signalScore : ℤ) : α) -
        ((((calculateSignalScore rm now item options).scoreBreakdown.relevance : ℤ) : α) *
            options.relevanceWeight +
          (((calculateSignalScore rm now item options).scoreBreakdown.recency : ℤ) : α) *
            options.recencyWeight +
          (((calculateSignalScore rm now item options).scoreBreakdown.engagement : ℤ) : α) *
            options.engagementWeight)| ≤ 1 := by
  obtain ⟨hrec0, hrec100⟩ := calculateRecencyScore_mem rm now (getRelevantTimestamp item) 7
  obtain ⟨heng0, heng100⟩ := calculateEngagementScore_mem item options.engagementBaselines
  obtain ⟨hrel0, hrel100⟩ := hrel
  set x1 := relevanceComponent item with hx1
  set x2 := calculateRecencyScore rm now (getRelevantTimestamp item) 7 with hx2
  set x3 := calculateEngagementScore item options.engagementBaselines with hx3
  set w1 := options.relevanceWeight
  set w2 := options.recencyWeight
  set w3 := options.engagementWeight
  have hs : (calculateSignalScore rm now item options).signalScore =
      jround (x1 * w1 + x2 * w2 + x3 * w3) := rfl
  have hb1 : (calculateSignalScore rm now item options).scoreBreakdown.relevance = jround x1 := rfl
  have hb2 : (calculateSignalScore rm now item options).scoreBreakdown.recency = jround x2 := rfl
  have hb3 : (calculateSignalScore rm now item options).scoreBreakdown.engagement =
    jround x3 := rfl
  have hS0 : 0 ≤ x1 * w1 + x2 * w2 + x3 * w3 := by positivity
  have h1 : x1 * w1 ≤ 100 * w1 := mul_le_mul_of_nonneg_right hrel100 hw1
  have h2 : x2 * w2 ≤ 100 * w2 := mul_le_mul_of_nonneg_right hrec100 hw2
  have h3 : x3 * w3 ≤ 100 * w3 := mul_le_mul_of_nonneg_right heng100 hw3
  have hS100 : x1 * w1 + x2 * w2 + x3 * w3 ≤ 100 := by
    have : 100 * w1 + 100 * w2 + 100 * w3 = 100 := by linarith
    linarith
  refine ⟨hs, ?_, ?_, ?_⟩
  · rw [hs]; exact jround_nonneg hS0
  · rw [hs]; exact jround_le_100 hS100
  · rw [hs, hb1, hb2, hb3]
    have d0 := jround_sub_le (x1 * w1 + x2 * w2 + x3 * w3)
    have d1 := abs_le.mp (jround_sub_le x1)
    have d2 := abs_le.mp (jround_sub_le x2)
    have d3 := abs_le.mp (jround_sub_le x3)
    have e1l : -(1 / 2) * w1 ≤ ((jround x1 : α) - x1) * w1 :=
      mul_le_mul_of_nonneg_right d1.1 hw1
    have e1r : ((jround x1 : α) - x1) * w1 ≤ 1 / 2 * w1 :=
      mul_le_mul_of_nonneg_right d1.2 hw1
    have e2l : -(1 / 2) * w2 ≤ ((jround x2 : α) - x2) * w2 :=
      mul_le_mul_of_nonneg_right d2.1 hw2
    have e2r : ((jround x2 : α) - x2) * w2 ≤ 1 / 2 * w2 :=
      mul_le_mul_of_nonneg_right d2.2 hw2
    have e3l : -(1 / 2) * w3 ≤ ((jround x3 : α) - x3) * w3 :=
      mul_le_mul_of_nonneg_right d3.1 hw3
    have e3r : ((jround x3 : α) - x3) * w3 ≤ 1 / 2 * w3 :=
      mul_le_mul_of_nonneg_right d3.2 hw3
    have d0' := abs_le.mp d0
    rw [abs_le]
    constructor <;>
      linarith [d0'.1, d0'.2, e1l, e1r, e2l, e2r, e3l, e3r, hsum]

/-- Witness for `calculateSignalScore_composite` at a concrete item with
stored relevance 80 and default options. -/
theorem calculateSignalScore_composite_witness :
    0 ≤ (calculateSignalScore rmQ 0 item80 {}).signalScore ∧
    (calculateSignalScore rmQ 0 item80 {}).signalScore ≤ 100 := by
  have h := calculateSignalScore_composite rmQ 0 item80 {}
    (by norm_num) (by norm_num) (by norm_num) (by norm_num)
    (by constructor <;> norm_num [relevanceComponent, item80])
  exact ⟨h.2.1, h.2.2.1⟩

/-! ## Novelty tracker helper lemmas -/

theorem markSeen_cache_ne {α μ : Type} (t : NoveltyTracker α μ) {id id' : String}
    (md : μ) (now : α) (h : id' ≠ id) :
    alookup id (t.markSeen id' md now).cache = alookup id t.cache := by
  unfold NoveltyTracker.markSeen
  cases halook : alookup id' t.cache <;> simp [alookup_aset_ne _ _ h]

theorem markSeen_pending_ne {α μ : Type} (t : NoveltyTracker α μ) {id id' : String}
    (md : μ) (now : α) (h : id' ≠ id) :
    alookup id (t.markSeen id' md now).pendingUpdates = alookup id t.pendingUpdates := by
  unfold NoveltyTracker.markSeen
  cases halook : alookup id' t.cache <;> simp [alookup_aset_ne _ _ h]

theorem markSeen_pending_eq_cache_self {α μ : Type} (t : NoveltyTracker α μ)
    (id : String) (md : μ) (now : α) :
    alookup id (t.markSeen id md now).pendingUpdates =
      alookup id (t.markSeen id md now).cache := by
  unfold NoveltyTracker.markSeen
  cases halook : alookup id t.cache <;> simp [alookup_aset_self]

theorem markSeen_cache_self_isSome {α μ : Type} (t : NoveltyTracker α μ)
    (id : String) (md : μ) (now : α) :
    (alookup id (t.markSeen id md now).cache).isSome := by
  unfold NoveltyTracker.markSeen
  cases halook : alookup id t.cache <;> simp [alookup_aset_self]

/-- `markSeen` on an unseen id creates the fresh record. -/
theorem markSeen_cache_create {α μ : Type} (t : NoveltyTracker α μ) (id : String)
    (md : μ) (now : α) (h : alookup id t.cache = none) :
    alookup id (t.markSeen id md now).cache =
      some { itemId := id, firstSeen := now, lastSeen := now, seenCount := 1, meta := md } := by
  unfold NoveltyTracker.markSeen
  rw [h]
  simp [alookup_aset_self]

/-- `markSeen` on a seen id updates `lastSeen` and `seenCount` only. -/
theorem markSeen_cache_update {α μ : Type} (t : NoveltyTracker α μ) (id : String)
    (md : μ) (now : α) (r : NoveltyRecord α μ) (h : alookup id t.cache = some r) :
    alookup id (t.markSeen id md now).cache =
      some { r with lastSeen := now,
                    seenCount := (if r.seenCount = 0 then 1 else r.seenCount) + 1 } := by
  unfold NoveltyTracker.markSeen
  rw [h]
  simp [alookup_aset_self]

/-- A single `markSeen` preserves the `firstSeen` of every existing record
(both the updated record and untouched records). -/
theorem markSeen_preserves_firstSeen {α μ : Type} (t : NoveltyTracker α μ)
    {id : String} (id' : String) (md : μ) (now : α) {r : NoveltyRecord α μ}
    (h : alookup id t.cache = some r) :
    ∃ r', alookup id (t.markSeen id' md now).cache = some r' ∧
      r'.firstSeen = r.firstSeen := by
  by_cases hid : id' = id
  · rw [hid, markSeen_cache_update t id md now r h]
    exact ⟨_, rfl, rfl⟩
  · exact ⟨r, by rw [markSeen_cache_ne t md now hid]; exact h, rfl⟩

/-- `markSeenSeq` preserves the `firstSeen` of every existing record. -/
theorem markSeenSeq_preserves_firstSeen {α μ : Type} (ops : List (String × μ × α)) :
    ∀ (t : NoveltyTracker α μ) (id : String) (r : NoveltyRecord α μ),
      alookup id t.cache = some r →
      ∃ r', alookup id (t.markSeenSeq ops).cache = some r' ∧
        r'.firstSeen = r.firstSeen := by
  induction ops with
  | nil => exact fun t id r h => ⟨r, h, rfl⟩
  | cons op rest ih =>
    intro t id r h
    obtain ⟨r1, hr1, hfs1⟩ := markSeen_preserves_firstSeen t op.1 op.2.1 op.2.2 h
    obtain ⟨r2, hr2, hfs2⟩ := ih (t.markSeen op.1 op.2.1 op.2.2) id r1 hr1
    exact ⟨r2, hr2, hfs2.trans hfs1⟩

/-- A `markSeen` step keeps every cached `seenCount` at least 1. -/
theorem markSeen_counts_ge_one {α μ : Type} (t : NoveltyTracker α μ)
    (id : String) (md : μ) (now : α) (h : ∀ p ∈ t.cache, 1 ≤ p.2.seenCount) :
    ∀ p ∈ (t.markSeen id md now).cache, 1 ≤ p.2.seenCount := by
  intro p hp
  unfold NoveltyTracker.markSeen at hp
  cases halook : alookup id t.cache with
  | none =>
    rw [halook] at hp
    rcases mem_aset hp with rfl | hmem
    · simp
    · exact h _ hmem
  | some r =>
    rw [halook] at hp
    rcases mem_aset hp with rfl | hmem
    · simp
    · exact h _ hmem

/-- `markSeenSeq` keeps every cached `seenCount` at least 1. -/
theorem markSeenSeq_counts_ge_one {α μ : Type} (ops : List (String × μ × α)) :
    ∀ t : NoveltyTracker α μ, (∀ p ∈ t.cache, 1 ≤ p.2.seenCount) →
      ∀ p ∈ (t.markSeenSeq ops).cache, 1 ≤ p.2.seenCount := by
  induction ops with
  | nil => exact fun t h => h
  | cons op rest ih =>
    exact fun t h => ih _ (markSeen_counts_ge_one t op.1 op.2.1 op.2.2 h)

/-- If `id` is not touched by `ops`, its cache entry is untouched. -/
theorem markSeenSeq_cache_untouched {α μ : Type} (ops : List (String × μ × α)) :
    ∀ (t : NoveltyTracker α μ) (id : String), id ∉ ops.map (fun op => op.1) →
      alookup id (t.markSeenSeq ops).cache = alookup id t.cache := by
  induction ops with
  | nil => intro t id _; rfl
  | cons op rest ih =>
    intro t id hid
    have h1 : op.1 ≠ id := fun h => hid (by simp [h])
    have h2 : id ∉ rest.map (fun op => op.1) := fun h => hid (by simp [h])
    calc alookup id (t.markSeenSeq (op :: rest)).cache
        = alookup id ((t.markSeen op.1 op.2.1 op.2.2).markSeenSeq rest).cache := rfl
      _ = alookup id (t.markSeen op.1 op.2.1 op.2.2).cache := ih _ id h2
      _ = alookup id t.cache := markSeen_cache_ne t op.2.1 op.2.2 h1

/-- After a sequence of `markSeen` calls, the pending map agrees with the
cache on every touched id and is untouched elsewhere. -/
theorem markSeenSeq_pending_eq {α μ : Type} (ops : List (String × μ × α)) :
    ∀ (t : NoveltyTracker α μ) (id : String),
      alookup id (t.markSeenSeq ops).pendingUpdates =
        if id ∈ ops.map (fun op => op.1) then alookup id (t.markSeenSeq ops).cache
        else alookup id t.pendingUpdates := by
  induction ops with
  | nil => intro t id; simp [NoveltyTracker.markSeenSeq]
  | cons op rest ih =>
    intro t id
    set t' := t.markSeen op.1 op.2.1 op.2.2 with ht'
    have hseq : t.markSeenSeq (op :: rest) = t'.markSeenSeq rest := rfl
    rw [hseq]
    by_cases hrest : id ∈ rest.map (fun op => op.1)
    · rw [ih t' id, if_pos hrest, if_pos (by simp [hrest])]
    · rw [ih t' id, if_neg hrest]
      by_cases hop : id = op.1
      · rw [if_pos (by simp [hop])]
        rw [markSeenSeq_cache_untouched rest t' id hrest]
        rw [hop]
        exact markSeen_pending_eq_cache_self t op.1 op.2.1 op.2.2
      · rw [if_neg (by simp [hrest, hop])]
        exact markSeen_pending_ne t op.2.1 op.2.2 (fun h => hop h.symm)

/-! ## Claim C5 -/

/-- **C5.**  Novelty record lifecycle under `markSeen`: a first `markSeen`
creates the record with `firstSeen = lastSeen = now` and `seenCount = 1`;
a later `markSeen` keeps `firstSeen` (indeed any sequence of further calls,
on any ids, keeps `firstSeen`), refreshes `lastSeen` to the call time and
increments `seenCount` by exactly 1 (markSeen-created records always have
`seenCount ≥ 1`, so the defensive `|| 1` never fires); in particular two
`markSeen` calls yield the original `firstSeen` and `seenCount = 2`. -/
theorem markSeen_record_evolution {α μ : Type} (t : NoveltyTracker α μ) (id : String) :
    (∀ (md : μ) (now : α), alookup id t.cache = none →
      alookup id (t.markSeen id md now).cache =
        some { itemId := id, firstSeen := now, lastSeen := now, seenCount := 1, meta := md }) ∧
    (∀ (md : μ) (now : α) (r : NoveltyRecord α μ), alookup id t.cache = some r →
      1 ≤ r.seenCount →
      ∃ r', alookup id (t.markSeen id md now).cache = some r' ∧
        r'.firstSeen = r.firstSeen ∧ r'.lastSeen = now ∧
        r'.seenCount = r.seenCount + 1 ∧ r'.meta = r.meta) ∧
    (∀ ops : List (String × μ × α), (∀ p ∈ t.cache, 1 ≤ p.2.seenCount) →
      ∀ p ∈ (t.markSeenSeq ops).cache, 1 ≤ p.2.seenCount) ∧
    (∀ (ops : List (String × μ × α)) (r : NoveltyRecord α μ),
      alookup id t.cache = some r →
      ∃ r', alookup id (t.markSeenSeq ops).cache = some r' ∧
        r'.firstSeen = r.firstSeen) ∧
    (∀ (md1 : μ) (n1 : α) (md2 : μ) (n2 : α), alookup id t.cache = none →
      ∃ r2, alookup id ((t.markSeen id md1 n1).markSeen id md2 n2).cache = some r2 ∧
        r2.firstSeen = n1 ∧ r2.lastSeen = n2 ∧ r2.seenCount = 2) := by
  refine ⟨?_, ?_, ?_, ?_, ?_⟩
  · exact fun md now h => markSeen_cache_create t id md now h
  · intro md now r h hcount
    refine ⟨_, markSeen_cache_update t id md now r h, rfl, rfl, ?_, rfl⟩
    show (if r.seenCount = 0 then 1 else r.seenCount) + 1 = r.seenCount + 1
    rw [if_neg (by omega)]
  · exact fun ops h0 => markSeenSeq_counts_ge_one ops t h0
  · intro ops r h
    exact markSeenSeq_preserves_firstSeen ops t id r h
  · intro md1 n1 md2 n2 h
    have h1 := markSeen_cache_create t id md1 n1 h
    have h2 := markSeen_cache_update (t.markSeen id md1 n1) id md2 n2 _ h1
    refine ⟨_, h2, rfl, rfl, ?_⟩
    show (if (1 : ℕ) = 0 then 1 else 1) + 1 = 2
    rfl

/-- Witness for `markSeen_record_evolution`: two `markSeen` calls on a fresh
tracker produce `firstSeen = 1`, `lastSeen = 2`, `seenCount = 2`. -/
theorem markSeen_record_evolution_witness :
    ∃ r2, alookup "x"
        (((NoveltyTracker.init (μ := Unit) (1 : ℚ) (1/10)).markSeen "x" () 1).markSeen
          "x" () 2).cache = some r2 ∧
      r2.firstSeen = 1 ∧ r2.lastSeen = 2 ∧ r2.seenCount = 2 :=
  (markSeen_record_evolution (NoveltyTracker.init (1 : ℚ) (1/10)) "x").2.2.2.2 () 1 () 2 rfl

/-! ## Claim C9 -/

/-- **C9.**  `flush` semantics: flushing an empty pending set is a no-op and
the storage backend's `save` is not called (`none` instrumentation);
otherwise `save` receives exactly the pending records, the cache is
untouched, and the pending set is cleared.  Starting from a flushed tracker,
the pending map holds exactly the (final cache) records of the ids touched
by the intervening `markSeen` calls, so that is precisely what the next
`flush` persists. -/
theorem flush_pending_semantics {α μ : Type} (t : NoveltyTracker α μ) :
    (t.pendingUpdates = [] → t.flush = (t, none)) ∧
    (t.flush.1.pendingUpdates = []) ∧
    (t.pendingUpdates ≠ [] →
      t.flush.2 = some (t.pendingUpdates.map Prod.snd) ∧ t.flush.1.cache = t.cache) ∧
    (t.pendingUpdates = [] → ∀ (ops : List (String × μ × α)) (id : String),
      alookup id (t.markSeenSeq ops).pendingUpdates =
        if id ∈ ops.map (fun op => op.1) then alookup id (t.markSeenSeq ops).cache
        else none) := by
  refine ⟨?_, ?_, ?_, ?_⟩
  · intro h
    unfold NoveltyTracker.flush
    rw [if_pos (by simp [h])]
  · unfold NoveltyTracker.flush
    by_cases h : t.pendingUpdates.isEmpty
    · rw [if_pos h]
      simpa using h
    · rw [if_neg h]
  · intro h
    unfold NoveltyTracker.flush
    rw [if_neg (by simpa [List.isEmpty_iff] using h)]
    exact ⟨rfl, rfl⟩
  · intro h ops id
    rw [markSeenSeq_pending_eq ops t id, h]
    by_cases hmem : id ∈ ops.map (fun op => op.1) <;> simp [hmem, alookup]

/-- Witness for `flush_pending_semantics`: on a fresh tracker, flushing is a
no-op with no save; after one `markSeen`, the pending map holds exactly that
id's record. -/
theorem flush_pending_semantics_witness :
    (NoveltyTracker.init (μ := Unit) (1 : ℚ) (1/10)).flush =
      (NoveltyTracker.init (1 : ℚ) (1/10), none) ∧
    alookup "x" ((NoveltyTracker.init (μ := Unit) (1 : ℚ)
        (1/10)).markSeenSeq [("x", (), 5)]).pendingUpdates =
      alookup "x" ((NoveltyTracker.init (μ := Unit) (1 : ℚ)
        (1/10)).markSeenSeq [("x", (), 5)]).cache := by
  refine ⟨(flush_pending_semantics _).1 rfl, ?_⟩
  have h := (flush_pending_semantics
    (NoveltyTracker.init (μ := Unit) (1 : ℚ) (1/10))).2.2.2 rfl [("x", (), 5)] "x"
  rw [h, if_pos (by simp)]

/-- `markSeen` leaves the tracker configuration untouched. -/
theorem markSeen_config {α μ : Type} (t : NoveltyTracker α μ) (id : String)
    (md : μ) (now : α) :
    (t.markSeen id md now).halfLifeDays = t.halfLifeDays ∧
      (t.markSeen id md now).minScore = t.minScore := by
  unfold NoveltyTracker.markSeen
  cases alookup id t.cache <;> exact ⟨rfl, rfl⟩

/-! ## Claim C3 -/

/-- **C3.**  `getNoveltyScore` over `ℝ` with the real `Math` primitives:
(1) an unseen id scores exactly `1.0`; (2) a seen id scores
`max(minScore, exp(-(log 2 / halfLifeDays) * daysSinceFirstSeen))`;
(3) the score never falls below `minScore`; (4) it is exactly `1.0`
immediately after the first `markSeen` (for any floor `≤ 1`); and (5) with a
positive half-life it is strictly decreasing in elapsed time while the later
value is still above the floor. -/
theorem getNoveltyScore_decay {μ : Type} (t : NoveltyTracker ℝ μ) (id : String) :
    (alookup id t.cache = none → ∀ now, t.getNoveltyScore realRM id now = 1) ∧
    (∀ (r : NoveltyRecord ℝ μ) (now : ℝ), alookup id t.cache = some r →
      t.getNoveltyScore realRM id now =
        max t.minScore
          (Real.exp (-(Real.log 2 / t.halfLifeDays * ((now - r.firstSeen) / (msPerDay : ℝ)))))) ∧
    (∀ (r : NoveltyRecord ℝ μ) (now : ℝ), alookup id t.cache = some r →
      t.minScore ≤ t.getNoveltyScore realRM id now) ∧
    (t.minScore ≤ 1 → ∀ (md : μ) (now : ℝ), alookup id t.cache = none →
      (t.markSeen id md now).getNoveltyScore realRM id now = 1) ∧
    (0 < t.halfLifeDays → ∀ (r : NoveltyRecord ℝ μ) (now1 now2 : ℝ),
      alookup id t.cache = some r → now1 < now2 →
      t.minScore < t.getNoveltyScore realRM id now2 →
      t.getNoveltyScore realRM id now2 < t.getNoveltyScore realRM id now1) := by
  have hscore : ∀ (r : NoveltyRecord ℝ μ) (now : ℝ), alookup id t.cache = some r →
      t.getNoveltyScore realRM id now =
        max t.minScore
          (Real.exp (-(Real.log 2 / t.halfLifeDays *
            ((now - r.firstSeen) / (msPerDay : ℝ))))) := by
    intro r now h
    unfold NoveltyTracker.getNoveltyScore
    rw [h]
    rfl
  refine ⟨?_, hscore, ?_, ?_, ?_⟩
  · intro h now
    unfold NoveltyTracker.getNoveltyScore
    rw [h]
  · intro r now h
    rw [hscore r now h]
    exact le_max_left _ _
  · intro hmin md now h
    have hc := markSeen_cache_create t id md now h
    unfold NoveltyTracker.getNoveltyScore
    rw [hc]
    simp only [sub_self, zero_div, mul_zero, neg_zero]
    rw [(markSeen_config t id md now).2]
    show t.minScore ⊔ Real.exp 0 = 1
    rw [Real.exp_zero]
    exact max_eq_right hmin
  · intro hhalf r now1 now2 h h12 habove
    have hlog : 0 < Real.log 2 := Real.log_pos one_lt_two
    have hc : 0 < Real.log 2 / t.halfLifeDays := div_pos hlog hhalf
    have hday : 0 < (msPerDay : ℝ) := by norm_num [msPerDay]
    have hd : (now1 - r.firstSeen) / (msPerDay : ℝ) < (now2 - r.firstSeen) / (msPerDay : ℝ) :=
      div_lt_div_of_pos_right (by linarith) hday
    have hexp : Real.exp (-(Real.log 2 / t.halfLifeDays *
          ((now2 - r.firstSeen) / (msPerDay : ℝ)))) <
        Real.exp (-(Real.log 2 / t.halfLifeDays * ((now1 - r.firstSeen) / (msPerDay : ℝ)))) := by
      apply Real.exp_lt_exp.mpr
      have := mul_lt_mul_of_pos_left hd hc
      linarith
    rw [hscore r now2 h] at habove ⊢
    rw [hscore r now1 h]
    have h2 : t.minScore < Real.exp (-(Real.log 2 / t.halfLifeDays *
        ((now2 - r.firstSeen) / (msPerDay : ℝ)))) := by
      rcases lt_max_iff.mp habove with hlt | hlt
      · exact absurd hlt (lt_irrefl _)
      · exact hlt
    rw [max_eq_right (le_of_lt h2), max_eq_right (le_of_lt (h2.trans hexp))]
    exact hexp

/-- Witness for `getNoveltyScore_decay`: after a first `markSeen` at time 0
with half-life 1 day and floor 0.1, the score is 1 at time 0 and strictly
smaller one day (86400000 ms) later. -/
theorem getNoveltyScore_decay_witness :
    ((NoveltyTracker.init (μ := Unit) (1 : ℝ) (1/10)).markSeen "x" () 0).getNoveltyScore
        realRM "x" 0 = 1 ∧
    ((NoveltyTracker.init (μ := Unit) (1 : ℝ) (1/10)).markSeen "x" () 0).getNoveltyScore
        realRM "x" 86400000 <
      ((NoveltyTracker.init (μ := Unit) (1 : ℝ) (1/10)).markSeen "x" () 0).getNoveltyScore
        realRM "x" 0 := by
  have hone : ((NoveltyTracker.init (μ := Unit) (1 : ℝ) (1/10)).markSeen "x" () 0).getNoveltyScore
      realRM "x" 0 = 1 :=
    (getNoveltyScore_decay (NoveltyTracker.init (μ := Unit) (1 : ℝ) (1/10)) "x").2.2.2.1
      (by norm_num : (1/10 : ℝ) ≤ 1) () 0 rfl
  refine ⟨hone, ?_⟩
  set t1 := (NoveltyTracker.init (μ := Unit) (1 : ℝ) (1/10)).markSeen "x" () 0 with ht1
  have hlook : alookup "x" t1.cache =
      some { itemId := "x", firstSeen := 0, lastSeen := 0, seenCount := 1, meta := () } :=
    markSeen_cache_create (NoveltyTracker.init (μ := Unit) (1 : ℝ) (1/10)) "x" () 0 rfl
  have hHL : t1.halfLifeDays = 1 := by
    rw [ht1, (markSeen_config _ _ _ _).1]
    rfl
  have hMS : t1.minScore = 1/10 := by
    rw [ht1, (markSeen_config _ _ _ _).2]
    rfl
  have hval : t1.getNoveltyScore realRM "x" 86400000 = 1/2 := by
    rw [(getNoveltyScore_decay t1 "x").2.1 _ 86400000 hlook]
    have harg : Real.log 2 / t1.halfLifeDays *
        (((86400000 : ℝ) - 0) / (msPerDay : ℝ)) = Real.log 2 := by
      rw [hHL]
      norm_num [msPerDay]
    rw [harg, Real.exp_neg, Real.exp_log (by norm_num : (0:ℝ) < 2), hMS]
    rw [max_eq_right (by norm_num)]
    norm_num
  have habove : t1.minScore < t1.getNoveltyScore realRM "x" 86400000 := by
    rw [hval, hMS]
    norm_num
  have := (getNoveltyScore_decay t1 "x").2.2.2.2 (hHL ▸ (by norm_num : (0:ℝ) < 1))
    _ 0 86400000 hlook (by norm_num) habove
  exact this

/-! ## Classifier helper lemmas -/

theorem findSome?_eq_none_of_forall {a b : Type} (f : a → Option b) (l : List a)
    (h : ∀ x ∈ l, f x = none) : l.findSome? f = none := by
  induction l with
  | nil => rfl
  | cons x xs ih =>
    rw [List.findSome?_cons, h x (by simp)]
    exact ih (fun y hy => h y (by simp [hy]))

theorem forall_none_of_findSome?_none {a b : Type} {f : a → Option b} {l : List a}
    (h : l.findSome? f = none) : ∀ x ∈ l, f x = none := by
  induction l with
  | nil => simp
  | cons x xs ih =>
    rw [List.findSome?_cons] at h
    intro y hy
    rcases List.mem_cons.mp hy with rfl | hmem
    · cases hfx : f y with
      | none => rfl
      | some z =>
        rw [hfx] at h
        exact absurd h (by simp)
    · cases hfx : f x with
      | some z =>
        rw [hfx] at h
        exact absurd h (by simp)
      | none =>
        rw [hfx] at h
        exact ih h y hmem

theorem exists_of_findSome?_some {a b : Type} {f : a → Option b} {l : List a} {y : b}
    (h : l.findSome? f = some y) : ∃ x ∈ l, f x = some y := by
  induction l with
  | nil => simp [List.findSome?] at h
  | cons x xs ih =>
    rw [List.findSome?_cons] at h
    cases hfx : f x with
    | some z =>
      rw [hfx] at h
      have h' : some z = some y := h
      exact ⟨x, by simp, hfx.trans h'⟩
    | none =>
      rw [hfx] at h
      obtain ⟨w, hw, hfw⟩ := ih h
      exact ⟨w, by simp [hw], hfw⟩

theorem find?_eq_none_of_forall {a : Type} (p : a → Bool) (l : List a)
    (h : ∀ x ∈ l, p x = false) : l.find? p = none :=
  List.find?_eq_none.mpr (fun x hx => by simp [h x hx])

theorem find?_some_facts {a : Type} {p : a → Bool} {l : List a} {x : a}
    (h : l.find? p = some x) : x ∈ l ∧ p x = true :=
  ⟨List.mem_of_find?_eq_some h, List.find?_some h⟩

/-! ## Claim C6 -/

/-- **C6.**  `classifySignalType` scans every category's *exact* keywords
before any category's *generic* keywords, first match winning: whenever some
category has a matching exact keyword, the returned classification is an
exact match — category taken from an entry whose exact list matches, with
`high` keyword confidence and the matching exact keyword reported — even if
an earlier-listed category has a matching generic keyword. -/
theorem classify_exact_outranks_generic {α : Type} (ctx : FilterContext) (item : Item α)
    (hex : ∃ p ∈ ctx.signalKeywords, ∃ kw ∈ p.2.exact,
      hasKeyword (itemText item).toList kw.toList = true) :
    ∃ p ∈ ctx.signalKeywords,
      (ctx.classifySignalType item).type = p.1 ∧
      (ctx.classifySignalType item).keywordConfidence = "high" ∧
      ∃ kw ∈ p.2.exact, hasKeyword (itemText item).toList kw.toList = true ∧
        (ctx.classifySignalType item).matchedKeyword = some kw := by
  have hne : findExactHit ctx (itemText item).toList ≠ none := by
    intro hnone
    obtain ⟨p, hp, kw, hkw, hmatch⟩ := hex
    have hfp := forall_none_of_findSome?_none hnone p hp
    cases hfind2 : p.2.exact.find? (fun kw => hasKeyword (itemText item).toList kw.toList) with
    | none =>
      have hforall := List.find?_eq_none.mp hfind2
      exact absurd hmatch (by simpa using hforall kw hkw)
    | some v => rw [hfind2] at hfp; simp at hfp
  cases hfind : findExactHit ctx (itemText item).toList with
  | none => exact absurd hfind hne
  | some tykw =>
    obtain ⟨ty, kw⟩ := tykw
    obtain ⟨p, hp, hfp⟩ := exists_of_findSome?_some hfind
    have hfind2 : ∃ kw', p.2.exact.find?
        (fun w => hasKeyword (itemText item).toList w.toList) = some kw' ∧
        ty = p.1 ∧ kw' = kw := by
      cases hf2 : p.2.exact.find? (fun w => hasKeyword (itemText item).toList w.toList) with
      | none => rw [hf2] at hfp; simp at hfp
      | some kw' =>
        rw [hf2] at hfp
        simp at hfp
        exact ⟨kw', rfl, hfp.1.symm, hfp.2⟩
    obtain ⟨kw', hkw', hty, hkwe⟩ := hfind2
    obtain ⟨hmem, hmatch⟩ := find?_some_facts hkw'
    have hclass : ctx.classifySignalType item =
        { type := ty, keywordConfidence := "high", matchedKeyword := some kw,
          isWatched := (findGlobalKeyword ctx (itemText item).toList).isSome } := by
      unfold FilterContext.classifySignalType
      rw [hfind]
    refine ⟨p, hp, ?_, ?_, kw', hmem, by simpa using hmatch, ?_⟩
    · rw [hclass, hty]
    · rw [hclass]
    · rw [hclass, hkwe]

/-- Witness for `classify_exact_outranks_generic` at `ctxC6`/`itemC6`. -/
theorem classify_exact_outranks_generic_witness :
    ∃ p ∈ ctxC6.signalKeywords,
      (ctxC6.classifySignalType itemC6).type = p.1 ∧
      (ctxC6.classifySignalType itemC6).keywordConfidence = "high" ∧
      ∃ kw ∈ p.2.exact, hasKeyword (itemText itemC6).toList kw.toList = true ∧
        (ctxC6.classifySignalType itemC6).matchedKeyword = some kw :=
  classify_exact_outranks_generic ctxC6 itemC6
    ⟨("technical", { exact := ["rust"] }), by decide, "rust", by decide, by decide⟩

/-! ## Claim C7 -/

/-- **C7, counterexample.**  The empty-string user global keyword matches
the item text (JS `indexOf('') === 0` with a non-word neighbour), no
category keyword matches (the keyword table is empty), and yet
classification falls through to `technical`/`low`/no
keyword/`isWatched = false` — not `high` — because
`if (matchedGlobalKeyword)` treats the matched empty string as falsy. -/
theorem classify_empty_global_falls_through :
    hasKeyword (itemText itemC7).toList "".toList = true ∧
    findGlobalKeyword ctxC7 (itemText itemC7).toList = some "" ∧
    ctxC7.classifySignalType itemC7 =
      { type := "technical", keywordConfidence := "low",
        matchedKeyword := none, isWatched := false } := by
  refine ⟨by decide, by decide, by decide⟩

/-- **C7, amended.**  `classifySignalType` is total and, whenever the
keyword table's categories are among the five fixed types (as
`setSignalKeywords` builds them), returns one of the five; when no category
keyword (exact or generic) matches: if the first matching user global
keyword is non-empty the result is `technical`/`high`/that
keyword/`isWatched = true`; if the first matching global keyword is the
empty string the truthiness checks skip the global fallback and the result
is the plain default; and no match at all yields `technical`/`low`/no
keyword/`isWatched = false`. -/
theorem classify_total_and_defaults {α : Type} (ctx : FilterContext) (item : Item α)
    (hkeys : ∀ p ∈ ctx.signalKeywords, p.1 ∈ SIGNAL_TYPES) :
    (ctx.classifySignalType item).type ∈ SIGNAL_TYPES ∧
    ((∀ p ∈ ctx.signalKeywords,
        (∀ kw ∈ p.2.exact, hasKeyword (itemText item).toList kw.toList = false) ∧
        (∀ kw ∈ p.2.generic, hasKeyword (itemText item).toList kw.toList = false)) →
      (∀ g, findGlobalKeyword ctx (itemText item).toList = some g → g ≠ "" →
        g ∈ ctx.userGlobalKeywords ∧
        hasKeyword (itemText item).toList g.toList = true ∧
        ctx.classifySignalType item =
          { type := "technical", keywordConfidence := "high",
            matchedKeyword := some g, isWatched := true }) ∧
      (findGlobalKeyword ctx (itemText item).toList = some "" →
        ctx.classifySignalType item =
          { type := "technical", keywordConfidence := "low",
            matchedKeyword := none, isWatched := false }) ∧
      ((∀ g ∈ ctx.userGlobalKeywords, hasKeyword (itemText item).toList g.toList = false) →
        ctx.classifySignalType item =
          { type := "technical", keywordConfidence := "low",
            matchedKeyword := none, isWatched := false })) := by
  have htech : "technical" ∈ SIGNAL_TYPES := by decide
  constructor
  · cases hfind : findExactHit ctx (itemText item).toList with
    | some tykw =>
      obtain ⟨ty, kw⟩ := tykw
      obtain ⟨p, hp, hfp⟩ := exists_of_findSome?_some hfind
      have hclass : (ctx.classifySignalType item).type = ty := by
        unfold FilterContext.classifySignalType
        rw [hfind]
      rw [hclass]
      cases hf2 : p.2.exact.find? (fun w => hasKeyword (itemText item).toList w.toList) with
      | none => rw [hf2] at hfp; simp at hfp
      | some kw' =>
        rw [hf2] at hfp
        simp at hfp
        rw [← hfp.1]
        exact hkeys p hp
    | none =>
      cases hfind2 : findGenericHit ctx (itemText item).toList with
      | some tykw =>
        obtain ⟨ty, kw⟩ := tykw
        obtain ⟨p, hp, hfp⟩ := exists_of_findSome?_some hfind2
        have hclass : (ctx.classifySignalType item).type = ty := by
          unfold FilterContext.classifySignalType
          rw [hfind, hfind2]
        rw [hclass]
        cases hf2 : p.2.generic.find? (fun w => hasKeyword (itemText item).toList w.toList) with
        | none => rw [hf2] at hfp; simp at hfp
        | some kw' =>
          rw [hf2] at hfp
          simp at hfp
          rw [← hfp.1]
          exact hkeys p hp
      | none =>
        have hclass : (ctx.classifySignalType item).type = "technical" := by
          unfold FilterContext.classifySignalType
          rw [hfind, hfind2]
          dsimp only
          split <;> rfl
        rw [hclass]; exact htech
  · intro hno
    have hexact : findExactHit ctx (itemText item).toList = none := by
      apply findSome?_eq_none_of_forall
      intro p hp
      have h1 := find?_eq_none_of_forall (fun w => hasKeyword (itemText item).toList w.toList)
        p.2.exact (hno p hp).1
      simp only [h1, Option.map_none']
    have hgeneric : findGenericHit ctx (itemText item).toList = none := by
      apply findSome?_eq_none_of_forall
      intro p hp
      have h1 := find?_eq_none_of_forall (fun w => hasKeyword (itemText item).toList w.toList)
        p.2.generic (hno p hp).2
      simp only [h1, Option.map_none']
    refine ⟨?_, ?_, ?_⟩
    · intro g hfind3 hgne
      obtain ⟨hmem, hmatch⟩ := find?_some_facts hfind3
      refine ⟨hmem, by simpa using hmatch, ?_⟩
      unfold FilterContext.classifySignalType
      rw [hexact, hgeneric, hfind3]
      simp [truthyStr, hgne]
    · intro hfind3
      unfold FilterContext.classifySignalType
      rw [hexact, hgeneric, hfind3]
      simp [truthyStr]
    · intro hglobal
      have hfind3 : findGlobalKeyword ctx (itemText item).toList = none :=
        find?_eq_none_of_forall _ _ hglobal
      unfold FilterContext.classifySignalType
      rw [hexact, hgeneric, hfind3]
      simp [truthyStr]

/-- Witness for `classify_total_and_defaults`: the default keyword table on
an item matching nothing yields `technical`/`low`/no keyword/unwatched. -/
theorem classify_total_and_defaults_witness :
    (FilterContext.init []).classifySignalType (α := ℚ) { id := "w", title := "zzz qqq" } =
      { type := "technical", keywordConfidence := "low",
        matchedKeyword := none, isWatched := false } :=
  ((classify_total_and_defaults (FilterContext.init [])
      { id := "w", title := "zzz qqq" } (by decide)).2 (by decide)).2.2 (by decide)

/-! ## Claim C1 -/

/-- **C1, counterexample.**  With the baseline set, a provider that fails on
the second item's text makes `batchRelevanceScores` reject as a whole: the
failing item does *not* default to similarity 0, and the first (healthy)
item receives no score either. -/
theorem batchRelevanceScores_aborts_on_failure :
    EmbeddingContext.batchRelevanceScores rmQ provFailBad ctxStQ [itemGood, itemBad] =
      .error (.provider ()) := by decide

theorem alookup_isSome_aset {κ ν : Type} [DecidableEq κ] (k k' : κ) (v : ν)
    (l : List (κ × ν)) (h : (alookup k' l).isSome) :
    (alookup k' (aset k v l)).isSome := by
  by_cases hk : k = k'
  · subst hk; simp [alookup_aset_self]
  · rwa [alookup_aset_ne v l hk]

/-- Through a successful `batchRelevanceScoresAux` run, accumulated scores
persist and every processed item ends up with a score. -/
theorem batchAux_ok_scores {α ε : Type} [LinearOrderedField α] [DecidableEq α]
    (rm : RMath α)
    (provider : String → Except ε (List α)) :
    ∀ (items : List (Item α)) (st : EmbeddingContext α) (acc scores : List (String × α))
      (st' : EmbeddingContext α),
      EmbeddingContext.batchRelevanceScoresAux rm provider st acc items = .ok (scores, st') →
      (∀ id, (alookup id acc).isSome → (alookup id scores).isSome) ∧
      (∀ item ∈ items, (alookup item.id scores).isSome) := by
  intro items
  induction items with
  | nil =>
    intro st acc scores st' h
    have h' : acc = scores := by
      have : (Except.ok (acc, st) : Except (EmbedError ε) _) = .ok (scores, st') := h
      simpa using congrArg (fun e => match e with
        | Except.ok p => p.1
        | Except.error _ => acc) this
    exact ⟨fun id hid => h' ▸ hid, by simp⟩
  | cons item rest ih =>
    intro st acc scores st' h
    unfold EmbeddingContext.batchRelevanceScoresAux at h
    cases hget : EmbeddingContext.getRelevanceScore rm provider st item with
    | error e => rw [hget] at h; exact absurd h (by simp)
    | ok r =>
      rw [hget] at h
      obtain ⟨score, st1, computed⟩ := r
      obtain ⟨hmono, hall⟩ := ih st1 (aset item.id score acc) scores st' h
      refine ⟨fun id hid => hmono id (alookup_isSome_aset _ _ _ _ hid), ?_⟩
      intro it hit
      rcases List.mem_cons.mp hit with rfl | hmem
      · exact hmono it.id (by simp [alookup_aset_self])
      · exact hall it hmem

/-- **C1, amended.**  `batchRelevanceScores` is all-or-nothing: if the
provider fails while freshly computing any item's similarity, the error
propagates and *no* scores map is returned at all; when the call succeeds,
every item in the batch has a score in the returned map.  Only an item whose
combined trimmed text is empty degrades to similarity `0`, without
consulting the provider. -/
theorem batchRelevanceScores_all_or_nothing {α ε : Type} [LinearOrderedField α]
    [DecidableEq α] (rm : RMath α) (provider : String → Except ε (List α)) (st : EmbeddingContext α) :
    (∀ (items : List (Item α)) (scores : List (String × α)) (st' : EmbeddingContext α),
      EmbeddingContext.batchRelevanceScores rm provider st items = .ok (scores, st') →
      ∀ item ∈ items, (alookup item.id scores).isSome) ∧
    (∀ (item : Item α) (ctxEmb : List α), st.contextEmbedding = some ctxEmb →
      itemKey item = "" →
      EmbeddingContext.getRelevanceScore rm provider st item = .ok (0, st, false)) := by
  constructor
  · intro items scores st' h
    exact (batchAux_ok_scores rm provider items st [] scores st' h).2
  · intro item ctxEmb hctx hkey
    unfold EmbeddingContext.getRelevanceScore
    rw [hctx]
    simp [hkey]

/-- Witness for `batchRelevanceScores_all_or_nothing`: a successful
one-item batch yields a score for that item's id, and an empty-text item
scores 0 without touching the provider. -/
theorem batchRelevanceScores_all_or_nothing_witness :
    (alookup "e" [(("e" : String), (0 : ℚ))]).isSome = true ∧
    EmbeddingContext.getRelevanceScore rmQ provFailBad ctxStQ ({ id := "e" } : Item ℚ) =
      .ok (0, ctxStQ, false) := by
  constructor
  · exact (batchRelevanceScores_all_or_nothing rmQ provFailBad ctxStQ).1
      [{ id := "e" }] [("e", 0)] ctxStQ (by decide) { id := "e" } (by simp)
  · exact (batchRelevanceScores_all_or_nothing rmQ provFailBad ctxStQ).2 { id := "e" } [1] rfl
      (by decide)

/-! ## Association-list and LRU lemmas for the cache invariant -/

theorem alookup_eq_none_iff {κ ν : Type} [DecidableEq κ] {k : κ} {l : List (κ × ν)} :
    alookup k l = none ↔ k ∉ l.map Prod.fst := by
  induction l with
  | nil => simp [alookup]
  | cons p rest ih =>
    by_cases h : p.1 = k
    · simp [alookup, h]
    · simp [alookup, h, ih, Ne.symm h]

theorem mem_of_alookup_eq_some {κ ν : Type} [DecidableEq κ] {k : κ} {v : ν}
    {l : List (κ × ν)} (h : alookup k l = some v) : (k, v) ∈ l := by
  induction l with
  | nil => simp [alookup] at h
  | cons p rest ih =>
    by_cases hp : p.1 = k
    · rw [alookup, if_pos hp] at h
      obtain ⟨p1, p2⟩ := p
      simp only at hp
      subst hp
      injection h with h2
      subst h2
      exact List.mem_cons_self _ _
    · rw [alookup, if_neg hp] at h
      exact List.mem_cons_of_mem _ (ih h)

/-- With distinct keys, an entry of the list is *the* entry for its key. -/
theorem alookup_eq_some_of_mem_nodup {κ ν : Type} [DecidableEq κ] {l : List (κ × ν)}
    (hnd : (l.map Prod.fst).Nodup) {p : κ × ν} (hp : p ∈ l) :
    alookup p.1 l = some p.2 := by
  induction l with
  | nil => simp at hp
  | cons q rest ih =>
    rw [List.map_cons, List.nodup_cons] at hnd
    rcases List.mem_cons.mp hp with rfl | hmem
    · rw [alookup, if_pos rfl]
    · have hne : q.1 ≠ p.1 := by
        intro he
        exact hnd.1 (he ▸ List.mem_map_of_mem Prod.fst hmem)
      rw [alookup, if_neg hne]
      exact ih hnd.2 hmem

theorem mem_aerase {κ ν : Type} [DecidableEq κ] {k : κ} {l : List (κ × ν)} {p : κ × ν} :
    p ∈ aerase k l ↔ p ∈ l ∧ p.1 ≠ k := by
  unfold aerase
  simp [List.mem_filter]

theorem keys_aerase_nodup {κ ν : Type} [DecidableEq κ] {k : κ} {l : List (κ × ν)}
    (h : (l.map Prod.fst).Nodup) : ((aerase k l).map Prod.fst).Nodup :=
  h.sublist (List.Sublist.map _ (List.filter_sublist l))

theorem mem_keys_aerase {κ ν : Type} [DecidableEq κ] {k k' : κ} {l : List (κ × ν)} :
    k' ∈ (aerase k l).map Prod.fst ↔ k' ∈ l.map Prod.fst ∧ k' ≠ k := by
  unfold aerase
  constructor
  · intro hmem
    obtain ⟨p, hp, rfl⟩ := List.mem_map.mp hmem
    obtain ⟨hpl, hpk⟩ := List.mem_filter.mp hp
    exact ⟨List.mem_map_of_mem _ hpl, by simpa using hpk⟩
  · rintro ⟨hmem, hne⟩
    obtain ⟨p, hp, rfl⟩ := List.mem_map.mp hmem
    exact List.mem_map_of_mem _ (List.mem_filter.mpr ⟨hp, by simpa using hne⟩)

/-- An LRU `get` miss returns the cache unchanged. -/
theorem lru_get_miss {ν : Type} (c : LRUCache ν) (k : ℤ)
    (h : alookup k c.cache = none) : c.get k = (none, c) := by
  unfold LRUCache.get
  rw [h]

/-- An LRU `get` hit returns the stored value and permutes the entries
(move-to-recent-end): same pairs, same keys, nodup and capacity kept. -/
theorem lru_get_hit {ν : Type} (c : LRUCache ν) (k : ℤ) (v : ν)
    (hnd : (c.cache.map Prod.fst).Nodup) (h : alookup k c.cache = some v) :
    ∃ c', c.get k = (some v, c') ∧
      c'.maxSize = c.maxSize ∧
      (∀ p : ℤ × ν, p ∈ c'.cache ↔ p ∈ c.cache) ∧
      (c'.cache.map Prod.fst).Nodup := by
  refine ⟨{ c with cache := aerase k c.cache ++ [(k, v)] }, by unfold LRUCache.get; rw [h],
    rfl, ?_, ?_⟩
  · intro p
    constructor
    · intro hp
      rcases List.mem_append.mp hp with hp | hp
      · exact (mem_aerase.mp hp).1
      · rcases List.mem_singleton.mp hp with rfl
        exact mem_of_alookup_eq_some h
    · intro hp
      by_cases hpk : p.1 = k
      · obtain ⟨p1, p2⟩ := p
        simp only at hpk
        subst hpk
        have h1 := alookup_eq_some_of_mem_nodup hnd hp
        simp only at h1
        rw [h] at h1
        injection h1 with h2
        subst h2
        exact List.mem_append.mpr (Or.inr (by simp))
      · exact List.mem_append.mpr (Or.inl (mem_aerase.mpr ⟨hp, hpk⟩))
  · rw [List.map_append]
    apply List.Nodup.append (keys_aerase_nodup hnd) (by simp)
    intro a ha hb
    rcases List.mem_singleton.mp hb with rfl
    exact (mem_keys_aerase.mp ha).2 rfl

/-- An LRU `set` of a fresh key below capacity appends, evicting nothing. -/
theorem lru_set_fresh {ν : Type} (c : LRUCache ν) (k : ℤ) (v : ν)
    (h : alookup k c.cache = none) (hlen : c.cache.length < c.maxSize) :
    c.set k v = { c with cache := c.cache ++ [(k, v)] } := by
  unfold LRUCache.set
  rw [h]
  simp [Nat.not_le.mpr hlen]

theorem mem_keys_iff_of_pairs {ν : Type} {l l' : List (ℤ × ν)}
    (hiff : ∀ p : ℤ × ν, p ∈ l' ↔ p ∈ l) (k : ℤ) :
    k ∈ l'.map Prod.fst ↔ k ∈ l.map Prod.fst := by
  constructor <;> intro hk <;> obtain ⟨p, hp, rfl⟩ := List.mem_map.mp hk
  · exact List.mem_map_of_mem _ ((hiff p).mp hp)
  · exact List.mem_map_of_mem _ ((hiff p).mpr hp)

/-- One `embed` step under the cache invariant: existing entries persist,
the invariant holds afterwards, the embedded text's hash is cached with the
returned vector, and the expensive computation is skipped when the hash was
already present. -/
theorem embed_step {α ε : Type} [LinearOrderedField α] [DecidableEq α] (rm : RMath α)
    (provider : String → Except ε (List α)) {H : Finset ℤ} {st : EmbeddingContext α}
    (text : String) (hinv : CacheInv H st) (hmem : hashString text ∈ H)
    (hcard : H.card ≤ st.cache.maxSize) {v : List α} {st' : EmbeddingContext α}
    {computed : Bool}
    (hrun : EmbeddingContext.embed rm provider st text = .ok (v, st', computed)) :
    (∀ p : ℤ × List α, p ∈ st.cache.cache → p ∈ st'.cache.cache) ∧
    CacheInv H st' ∧
    st'.contextEmbedding = st.contextEmbedding ∧
    st'.cache.maxSize = st.cache.maxSize ∧
    (hashString text, v) ∈ st'.cache.cache ∧
    (hashString text ∈ st.cache.keys → computed = false) := by
  obtain ⟨hnd, hsub⟩ := hinv
  unfold EmbeddingContext.embed at hrun
  cases halook : alookup (hashString text) st.cache.cache with
  | some w =>
    obtain ⟨c', hget, hmax, hpairs, hnd'⟩ := lru_get_hit st.cache (hashString text) w hnd halook
    rw [hget] at hrun
    have hv : w = v ∧ ({ st with cache := c' } : EmbeddingContext α) = st' ∧
        false = computed := by
      injection hrun with h1
      injection h1 with ha hb
      injection hb with hb1 hb2
      exact ⟨ha, hb1, hb2⟩
    obtain ⟨rfl, hst', hcomp⟩ := hv
    subst hst'
    refine ⟨fun p hp => (hpairs p).mpr hp, ⟨hnd', ?_⟩, rfl, hmax, ?_, fun _ => hcomp.symm⟩
    · intro k hk
      exact hsub k ((mem_keys_iff_of_pairs hpairs k).mp hk)
    · exact (hpairs _).mpr (mem_of_alookup_eq_some halook)
  | none =>
    rw [lru_get_miss st.cache (hashString text) halook] at hrun
    cases hc : computeEmbedding rm provider text with
    | error e => rw [hc] at hrun; exact absurd hrun (by simp)
    | ok emb =>
      rw [hc] at hrun
      have hkeys : hashString text ∉ st.cache.keys := alookup_eq_none_iff.mp halook
      have hlen : st.cache.cache.length < st.cache.maxSize := by
        have h1 : st.cache.keys.toFinset ⊆ H.erase (hashString text) := by
          intro k hk
          rw [List.mem_toFinset] at hk
          exact Finset.mem_erase.mpr ⟨fun he => hkeys (he ▸ hk), hsub k hk⟩
        have h2 : st.cache.keys.toFinset.card ≤ (H.erase (hashString text)).card :=
          Finset.card_le_card h1
        rw [List.toFinset_card_of_nodup hnd, Finset.card_erase_of_mem hmem] at h2
        have h3 : st.cache.keys.length = st.cache.cache.length := by
          unfold LRUCache.keys
          exact List.length_map _ _
        have h4 : 0 < H.card := Finset.card_pos.mpr ⟨_, hmem⟩
        omega
      have hsetf := lru_set_fresh st.cache (hashString text) emb halook hlen
      have hv : emb = v ∧
          ({ st with cache := st.cache.set (hashString text) emb } :
            EmbeddingContext α) = st' ∧ true = computed := by
        injection hrun with h1
        injection h1 with ha hb
        injection hb with hb1 hb2
        exact ⟨ha, hb1, hb2⟩
      obtain ⟨rfl, hst', _⟩ := hv
      rw [hsetf] at hst'
      subst hst'
      refine ⟨fun p hp => List.mem_append.mpr (Or.inl hp), ⟨?_, ?_⟩, rfl, rfl, ?_, ?_⟩
      · show ((st.cache.cache ++ [(hashString text, emb)]).map Prod.fst).Nodup
        rw [List.map_append]
        refine List.Nodup.append hnd (by simp) ?_
        intro a ha hb
        rcases List.mem_singleton.mp hb with rfl
        exact hkeys ha
      · intro k hk
        show k ∈ H
        have : k ∈ (st.cache.cache ++ [(hashString text, emb)]).map Prod.fst := hk
        rw [List.map_append, List.mem_append] at this
        rcases this with hk' | hk'
        · exact hsub k hk'
        · rcases List.mem_singleton.mp hk' with rfl
          exact hmem
      · exact List.mem_append.mpr (Or.inr (by simp))
      · intro hmem'
        exact absurd hmem' hkeys

/-- One `getRelevanceScore` step under the cache invariant. -/
theorem getRelevanceScore_step {α ε : Type} [LinearOrderedField α] [DecidableEq α]
    (rm : RMath α)
    (provider : String → Except ε (List α)) {H : Finset ℤ} {st : EmbeddingContext α}
    (item : Item α) (hinv : CacheInv H st)
    (hmem : itemKey item ≠ "" → hashString (itemKey item) ∈ H)
    (hcard : H.card ≤ st.cache.maxSize) {ce : List α} (hce : st.contextEmbedding = some ce)
    {score : α} {st' : EmbeddingContext α} {computed : Bool}
    (hrun : EmbeddingContext.getRelevanceScore rm provider st item =
      .ok (score, st', computed)) :
    (∀ p : ℤ × List α, p ∈ st.cache.cache → p ∈ st'.cache.cache) ∧
    CacheInv H st' ∧
    st'.contextEmbedding = some ce ∧
    st'.cache.maxSize = st.cache.maxSize ∧
    (itemKey item = "" → score = 0 ∧ computed = false) ∧
    (itemKey item ≠ "" → ∃ v, (hashString (itemKey item), v) ∈ st'.cache.cache ∧
      score = cosineSimilarity rm ce v) ∧
    (itemKey item ≠ "" → hashString (itemKey item) ∈ st.cache.keys → computed = false) := by
  unfold EmbeddingContext.getRelevanceScore at hrun
  rw [hce] at hrun
  by_cases hkey : itemKey item = ""
  · have hrun' : (Except.ok (0, st, false) :
        Except (EmbedError ε) (α × EmbeddingContext α × Bool)) =
        .ok (score, st', computed) := by
      rw [← hrun]
      show _ = (if itemKey item = "" then Except.ok (0, st, false) else _)
      rw [if_pos hkey]
    have hv : (0 : α) = score ∧ st = st' ∧ false = computed := by
      injection hrun' with h1
      injection h1 with ha hb
      injection hb with hb1 hb2
      exact ⟨ha, hb1, hb2⟩
    obtain ⟨rfl, rfl, rfl⟩ := hv
    exact ⟨fun p hp => hp, hinv, hce, rfl, fun _ => ⟨rfl, rfl⟩,
      fun h => absurd hkey h, fun h => absurd hkey h⟩
  · have hrun' : (match EmbeddingContext.embed rm provider st (itemKey item) with
        | Except.error e => Except.error (EmbedError.provider e)
        | Except.ok (itemEmbedding, st'', c) =>
          Except.ok (cosineSimilarity rm ce itemEmbedding, st'', c)) =
        .ok (score, st', computed) := by
      rw [← hrun]
      show _ = (if itemKey item = "" then Except.ok (0, st, false) else _)
      rw [if_neg hkey]
    cases hembed : EmbeddingContext.embed rm provider st (itemKey item) with
    | error e => rw [hembed] at hrun'; exact absurd hrun' (by simp)
    | ok r =>
      obtain ⟨v0, st0, c0⟩ := r
      rw [hembed] at hrun'
      have hv : cosineSimilarity rm ce v0 = score ∧ st0 = st' ∧ c0 = computed := by
        injection hrun' with h1
        injection h1 with ha hb
        injection hb with hb1 hb2
        exact ⟨ha, hb1, hb2⟩
      obtain ⟨hscore, rfl, rfl⟩ := hv
      obtain ⟨hpersist, hinv', hctx, hmax, hcached, hskip⟩ :=
        embed_step rm provider (itemKey item) hinv (hmem hkey) hcard hembed
      refine ⟨hpersist, hinv', by rw [hctx, hce], hmax, fun h => absurd h hkey,
        fun _ => ⟨v0, hcached, hscore.symm⟩, fun _ => hskip⟩

theorem keys_mono_of_pairs {ν : Type} {l l' : List (ℤ × ν)}
    (hsub : ∀ p : ℤ × ν, p ∈ l → p ∈ l') {k : ℤ} (hk : k ∈ l.map Prod.fst) :
    k ∈ l'.map Prod.fst := by
  obtain ⟨p, hp, rfl⟩ := List.mem_map.mp hk
  exact List.mem_map_of_mem _ (hsub p hp)

theorem zip_get_mem {A B : Type} :
    ∀ (l1 : List A) (l2 : List B) (i : ℕ) (h1 : i < l1.length) (h2 : i < l2.length),
      (l1.get ⟨i, h1⟩, l2.get ⟨i, h2⟩) ∈ l1.zip l2
  | _ :: _, _ :: _, 0, _, _ => by simp
  | a :: l1, b :: l2, i + 1, h1, h2 => by
    have := zip_get_mem l1 l2 i (Nat.lt_of_succ_lt_succ h1) (Nat.lt_of_succ_lt_succ h2)
    simpa using Or.inr this

theorem zip_get_eq {A B : Type} :
    ∀ (l1 : List A) (l2 : List B) (i : ℕ) (h : i < (l1.zip l2).length),
      ∃ (h1 : i < l1.length) (h2 : i < l2.length),
        (l1.zip l2).get ⟨i, h⟩ = (l1.get ⟨i, h1⟩, l2.get ⟨i, h2⟩)
  | _ :: _, _ :: _, 0, _ => ⟨by simp, by simp, rfl⟩
  | a :: l1, b :: l2, i + 1, h => by
    obtain ⟨h1, h2, he⟩ := zip_get_eq l1 l2 i (by simpa using h)
    exact ⟨by simpa using h1, by simpa using h2, by simpa using he⟩

theorem length_filter_le_one_of_no_two {A : Type} :
    ∀ (l : List A) (P : A → Bool),
      (∀ (i j : ℕ) (hi : i < l.length) (hj : j < l.length), i < j →
        P (l.get ⟨i, hi⟩) = true → P (l.get ⟨j, hj⟩) = true → False) →
      (l.filter P).length ≤ 1
  | [], _, _ => by simp
  | x :: xs, P, h => by
    by_cases hx : P x = true
    · have hxs : xs.filter P = [] := by
        rw [List.filter_eq_nil]
        intro a ha
        obtain ⟨k, hk⟩ := List.mem_iff_get.mp ha
        intro hPa
        apply h 0 (k + 1) (by simp) (by simpa using k.isLt) (by omega) hx
        show P (xs.get k) = true
        rw [hk]
        exact hPa
      simp [List.filter_cons, hx, hxs]
    · have := length_filter_le_one_of_no_two xs P (fun i j hi hj hij hPi hPj =>
        h (i + 1) (j + 1) (by simpa using hi) (by simpa using hj) (by omega)
          (by simpa using hPi) (by simpa using hPj))
      simpa [List.filter_cons, hx] using this

/-! ## Marking lemmas for the filter loop -/

theorem fctx_markSeen_mono (f : FilterContext) (id id' : String) (h : id ∈ f.seenIds) :
    id ∈ (f.markSeen id').seenIds := by
  unfold FilterContext.markSeen
  by_cases hmem : id' ∈ f.seenIds <;> simp [hmem, h]

theorem fctx_markSeen_self (f : FilterContext) (id : String) :
    id ∈ (f.markSeen id).seenIds := by
  unfold FilterContext.markSeen
  by_cases hmem : id ∈ f.seenIds <;> simp [hmem]

theorem foldl_fctx_mono {α : Type} :
    ∀ (its : List (Item α)) (f : FilterContext) (id : String), id ∈ f.seenIds →
      id ∈ (its.foldl (fun f i => f.markSeen i.id) f).seenIds
  | [], _, _, h => h
  | it :: rest, f, id, h =>
    foldl_fctx_mono rest (f.markSeen it.id) id (fctx_markSeen_mono f id it.id h)

theorem foldl_fctx_marks {α : Type} :
    ∀ (its : List (Item α)) (f : FilterContext) (it : Item α), it ∈ its →
      it.id ∈ (its.foldl (fun f i => f.markSeen i.id) f).seenIds := by
  intro its
  induction its with
  | nil => intro f it h; cases h
  | cons hd rest ih =>
    intro f it h
    rcases List.mem_cons.mp h with rfl | hmem
    · exact foldl_fctx_mono rest (f.markSeen it.id) it.id (fctx_markSeen_self f it.id)
    · exact ih (f.markSeen hd.id) it hmem

/-- `flush` never touches the in-memory cache. -/
theorem flush_fst_cache {α μ : Type} (t : NoveltyTracker α μ) :
    (t.flush).1.cache = t.cache := by
  unfold NoveltyTracker.flush
  split <;> rfl

/-- The loop's final filter-context / tracker states are the folds marking
every processed item, independent of the threshold tests. -/
theorem filterLoop_state {α : Type} [LinearOrderedField α] [FloorRing α] [DecidableEq α]
    [∀ a b : α, Decidable (a ≤ b)] [∀ a b : α, Decidable (a < b)] (rm : RMath α)
    (rt nt now : α) (rs : List (String × α)) :
    ∀ (its : List (Item α)) (fctx : FilterContext)
      (tracker : Option (NoveltyTracker α TrackerMeta)),
      (filterLoop rm rt nt now rs fctx tracker its).2 =
        (its.foldl (fun f i => f.markSeen i.id) fctx,
         its.foldl (fun t? i =>
           t?.map (fun t => t.markSeen i.id { title := i.title, source := i.source } now))
           tracker)
  | [], _, _ => rfl
  | item :: rest, fctx, tracker => by
    show (filterLoop rm rt nt now rs (fctx.markSeen item.id)
        (tracker.map (fun t =>
          t.markSeen item.id { title := item.title, source := item.source } now)) rest).2 =
      (rest.foldl (fun f i => f.markSeen i.id) (fctx.markSeen item.id),
       rest.foldl (fun t? i =>
           t?.map (fun t => t.markSeen i.id { title := i.title, source := i.source } now))
         (tracker.map (fun t =>
           t.markSeen item.id { title := item.title, source := item.source } now)))
    exact filterLoop_state rm rt nt now rs rest _ _

/-- The tracker fold is a `markSeenSeq` over one `markSeen` op per item. -/
theorem foldl_tracker_markSeenSeq {α : Type} (now : α) :
    ∀ (its : List (Item α)) (t : NoveltyTracker α TrackerMeta),
      its.foldl (fun t? i =>
          t?.map (fun t => t.markSeen i.id { title := i.title, source := i.source } now))
        (some t) =
      some (t.markSeenSeq (its.map (fun i =>
        (i.id, ({ title := i.title, source := i.source } : TrackerMeta), now))))
  | [], _ => rfl
  | it :: rest, t =>
    foldl_tracker_markSeenSeq now rest
      (t.markSeen it.id { title := it.title, source := it.source } now)

/-- After a `markSeen` sequence all of whose ops carry the time `now`,
every op's id holds a cache record with `lastSeen = now` and a positive
`seenCount`. -/
theorem markSeenSeq_marks {α μ : Type} (now : α) :
    ∀ (ops : List (String × μ × α)), (∀ op ∈ ops, op.2.2 = now) →
      ∀ (t : NoveltyTracker α μ) (id : String), id ∈ ops.map (fun op => op.1) →
        ∃ r, alookup id (t.markSeenSeq ops).cache = some r ∧
          r.lastSeen = now ∧ 1 ≤ r.seenCount := by
  intro ops
  induction ops with
  | nil => intro _ t id h; cases h
  | cons op rest ih =>
    intro hnow t t_id hid
    have hseq : t.markSeenSeq (op :: rest) = (t.markSeen op.1 op.2.1 op.2.2).markSeenSeq rest :=
      rfl
    by_cases hmem : t_id ∈ rest.map (fun op => op.1)
    · rw [hseq]
      exact ih (fun o ho => hnow o (List.mem_cons_of_mem _ ho)) _ t_id hmem
    · have hide : op.1 = t_id := by
        rcases List.mem_map.mp hid with ⟨o, ho, hoe⟩
        rcases List.mem_cons.mp ho with rfl | hor
        · exact hoe
        · exact absurd (List.mem_map.mpr ⟨o, hor, hoe⟩) hmem
      have hop : op.2.2 = now := hnow op (List.mem_cons_self op rest)
      rw [hseq, markSeenSeq_cache_untouched rest _ t_id hmem, hide] at *
      cases hc : alookup t_id t.cache with
      | none =>
        refine ⟨_, markSeen_cache_create t t_id op.2.1 op.2.2 hc, hop, le_refl 1⟩
      | some r =>
        refine ⟨_, markSeen_cache_update t t_id op.2.1 op.2.2 r hc, hop, ?_⟩
        by_cases hz : r.seenCount = 0 <;> simp [hz] <;> omega

/-! ## Lemmas for the concurrency-group cache model -/

theorem alookup_append {κ ν : Type} [DecidableEq κ] (k : κ) :
    ∀ (l1 l2 : List (κ × ν)),
      alookup k (l1 ++ l2) =
        match alookup k l1 with
        | some v => some v
        | none => alookup k l2
  | [], _ => rfl
  | (k', v') :: rest, l2 => by
    by_cases h : k' = k
    · simp [alookup, h]
    · simpa [alookup, h] using alookup_append k rest l2

theorem alookup_aerase_ne {κ ν : Type} [DecidableEq κ] {k k' : κ} :
    ∀ (l : List (κ × ν)), k' ≠ k → alookup k' (aerase k l) = alookup k' l
  | [], _ => rfl
  | (pk, pv) :: rest, h => by
    have ih := @alookup_aerase_ne κ ν _ k k' rest h
    by_cases hp : pk = k
    · subst hp
      have hlist : aerase pk ((pk, pv) :: rest) = aerase pk rest := by
        simp [aerase, List.filter_cons]
      rw [hlist, ih]
      simp only [alookup]
      rw [if_neg (fun hh => h hh.symm)]
    · have hlist : aerase k ((pk, pv) :: rest) = (pk, pv) :: aerase k rest := by
        simp [aerase, List.filter_cons, hp]
      rw [hlist]
      simp only [alookup]
      by_cases hpk : pk = k'
      · rw [if_pos hpk, if_pos hpk]
      · rw [if_neg hpk, if_neg hpk]
        exact ih

theorem alookup_aerase_self {κ ν : Type} [DecidableEq κ] (k : κ) (l : List (κ × ν)) :
    alookup k (aerase k l) = none := by
  rw [alookup_eq_none_iff]
  intro hmem
  exact (mem_keys_aerase.mp hmem).2 rfl

/-- An LRU `get` preserves capacity, key distinctness, the entry set and
every association. -/
theorem lru_get_state {ν : Type} (c : LRUCache ν) (k : ℤ) (hnd : c.keys.Nodup) :
    (c.get k).2.maxSize = c.maxSize ∧
    (c.get k).2.keys.Nodup ∧
    (∀ p, p ∈ (c.get k).2.cache → p ∈ c.cache) ∧
    (∀ k', alookup k' (c.get k).2.cache = alookup k' c.cache) := by
  unfold LRUCache.get
  cases halook : alookup k c.cache with
  | none => exact ⟨rfl, hnd, fun _ hp => hp, fun _ => rfl⟩
  | some v =>
    refine ⟨rfl, ?_, ?_, ?_⟩
    · show ((aerase k c.cache ++ [(k, v)]).map Prod.fst).Nodup
      rw [List.map_append]
      refine List.Nodup.append (keys_aerase_nodup hnd) (by simp) ?_
      intro a ha hb
      simp at hb
      subst hb
      exact (mem_keys_aerase.mp ha).2 rfl
    · intro p hp
      rcases List.mem_append.mp hp with hp | hp
      · exact (mem_aerase.mp hp).1
      · simp at hp
        subst hp
        exact mem_of_alookup_eq_some halook
    · intro k'
      show alookup k' (aerase k c.cache ++ [(k, v)]) = alookup k' c.cache
      rw [alookup_append]
      by_cases hk : k' = k
      · subst hk
        rw [alookup_aerase_self]
        simp [alookup, halook]
      · rw [alookup_aerase_ne _ hk]
        cases h2 : alookup k' c.cache with
        | some w => rfl
        | none => simp [alookup, Ne.symm hk]

/-- An LRU `set` whose key is inside the hash budget never evicts: every
key survives, the new key appears, and the invariant is preserved. -/
theorem lru_set_inv {α ε : Type} [LinearOrderedField α] {rm : RMath α}
    {provider : String → Except ε (List α)} {texts : List String} {H : Finset ℤ}
    {c : LRUCache (List α)} (hinv : GCacheInv rm provider texts H c)
    {k : ℤ} {v : List α} (hk : k ∈ H)
    (hv : ∃ t ∈ texts, t ≠ "" ∧ hashString t = k ∧
      computeEmbedding rm provider t = .ok v) :
    GCacheInv rm provider texts H (c.set k v) ∧
    (∀ k', k' ∈ c.keys → k' ∈ (c.set k v).keys) ∧
    k ∈ (c.set k v).keys ∧
    (c.set k v).maxSize = c.maxSize := by
  unfold GCacheInv at hinv ⊢
  obtain ⟨hnd, hsub, hcard, hent⟩ := hinv
  unfold LRUCache.set
  cases halook : alookup k c.cache with
  | some w =>
    simp only [halook, Option.isSome_some, if_true]
    refine ⟨⟨?_, ?_, hcard, ?_⟩, ?_, ?_, trivial⟩
    · show ((aerase k c.cache ++ [(k, v)]).map Prod.fst).Nodup
      rw [List.map_append]
      refine List.Nodup.append (keys_aerase_nodup hnd) (by simp) ?_
      intro a ha hb
      simp at hb
      subst hb
      exact (mem_keys_aerase.mp ha).2 rfl
    · intro k' hk'
      show k' ∈ H
      rw [show ((⟨c.maxSize, aerase k c.cache ++ [(k, v)]⟩ : LRUCache (List α)).keys) =
        (aerase k c.cache).map Prod.fst ++ [k] from by simp [LRUCache.keys]] at hk'
      rcases List.mem_append.mp hk' with h | h
      · exact hsub _ ((mem_keys_aerase.mp h).1)
      · simp at h
        subst h
        exact hk
    · intro p hp
      rcases List.mem_append.mp hp with hp | hp
      · exact hent p (mem_aerase.mp hp).1
      · simp at hp
        subst hp
        exact hv
    · intro k' hk'
      show k' ∈ (aerase k c.cache ++ [(k, v)]).map Prod.fst
      rw [List.map_append]
      by_cases hkk : k' = k
      · subst hkk
        exact List.mem_append.mpr (Or.inr (by simp))
      · exact List.mem_append.mpr (Or.inl (mem_keys_aerase.mpr ⟨hk', hkk⟩))
    · show k ∈ (aerase k c.cache ++ [(k, v)]).map Prod.fst
      rw [List.map_append]
      exact List.mem_append.mpr (Or.inr (by simp))
  | none =>
    have hkey : k ∉ c.keys := alookup_eq_none_iff.mp halook
    have hlen : c.cache.length < c.maxSize := by
      rcases Nat.lt_or_ge c.cache.length c.maxSize with hlt | hge
      · exact hlt
      · exfalso
        have h1 : c.keys.toFinset.card = c.keys.length := List.toFinset_card_of_nodup hnd
        have h2 : c.keys.toFinset ⊆ H := fun x hx => hsub x (List.mem_toFinset.mp hx)
        have h3 : c.keys.length = c.cache.length := by simp [LRUCache.keys]
        have h4 : H.card ≤ c.keys.toFinset.card := by omega
        have h5 : c.keys.toFinset = H := Finset.eq_of_subset_of_card_le h2 h4
        exact hkey (List.mem_toFinset.mp (h5 ▸ hk))
    rw [if_neg (by simp [halook]), if_neg (Nat.not_le.mpr hlen)]
    refine ⟨⟨?_, ?_, hcard, ?_⟩, ?_, ?_, rfl⟩
    · show ((c.cache ++ [(k, v)]).map Prod.fst).Nodup
      rw [List.map_append]
      refine List.Nodup.append hnd (by simp) ?_
      intro a ha hb
      simp at hb
      subst hb
      exact hkey ha
    · intro k' hk'
      show k' ∈ H
      rw [show ((⟨c.maxSize, c.cache ++ [(k, v)]⟩ : LRUCache (List α)).keys) =
        c.cache.map Prod.fst ++ [k] from by simp [LRUCache.keys]] at hk'
      rcases List.mem_append.mp hk' with h | h
      · exact hsub _ h
      · simp at h
        subst h
        exact hk
    · intro p hp
      rcases List.mem_append.mp hp with hp | hp
      · exact hent p hp
      · simp at hp
        subst hp
        exact hv
    · intro k' hk'
      show k' ∈ (c.cache ++ [(k, v)]).map Prod.fst
      rw [List.map_append]
      exact List.mem_append.mpr (Or.inl hk')
    · show k ∈ (c.cache ++ [(k, v)]).map Prod.fst
      rw [List.map_append]
      exact List.mem_append.mpr (Or.inr (by simp))

theorem div_sub_one (c i : ℕ) (hc : 0 < c) (hci : c ≤ i) : (i - c) / c = i / c - 1 := by
  obtain ⟨q, r, hrlt, hiq⟩ : ∃ q r, r < c ∧ i = c * q + r :=
    ⟨i / c, i % c, Nat.mod_lt _ hc, (Nat.div_add_mod i c).symm⟩
  have hr0 : r / c = 0 := Nat.div_eq_of_lt hrlt
  cases q with
  | zero => omega
  | succ q' =>
    have h1 : i - c = c * q' + r := by
      rw [hiq, Nat.mul_succ]
      omega
    rw [h1, hiq, Nat.mul_add_div hc, Nat.mul_add_div hc, hr0]
    omega

/-- The synchronous start phase of a group: capacity, key distinctness and
all associations are preserved (hits only refresh recency), and the
recorded plans are exactly each item's plan against the group-start
state. -/
theorem groupStarts_spec {α : Type} :
    ∀ (g : List (Item α)) (c : LRUCache (List α)), c.keys.Nodup →
      (groupStarts c g).1.maxSize = c.maxSize ∧
      (groupStarts c g).1.keys.Nodup ∧
      (∀ p, p ∈ (groupStarts c g).1.cache → p ∈ c.cache) ∧
      (∀ k, alookup k (groupStarts c g).1.cache = alookup k c.cache) ∧
      (groupStarts c g).2 = g.map (fun it => (it, planOf c it))
  | [], c, hnd => ⟨rfl, hnd, fun _ hp => hp, fun _ => rfl, rfl⟩
  | item :: rest, c, hnd => by
    simp only [groupStarts]
    by_cases hkey : itemKey item = ""
    · rw [if_pos hkey]
      obtain ⟨h1, h2, h3, h4, h5⟩ := groupStarts_spec rest c hnd
      exact ⟨h1, h2, h3, h4, by
        simp only [List.map_cons, h5, planOf, if_pos hkey]⟩
    · rw [if_neg hkey]
      cases halook : alookup (hashString (itemKey item)) c.cache with
      | none =>
        have hget : c.get (hashString (itemKey item)) = (none, c) := lru_get_miss c _ halook
        rw [hget]
        obtain ⟨h1, h2, h3, h4, h5⟩ := groupStarts_spec rest c hnd
        exact ⟨h1, h2, h3, h4, by
          simp only [List.map_cons, h5, planOf, if_neg hkey, halook]⟩
      | some v =>
        obtain ⟨g1, g2, g3, g4⟩ := lru_get_state c (hashString (itemKey item)) hnd
        have hget1 : (c.get (hashString (itemKey item))).1 = some v := by
          unfold LRUCache.get
          rw [halook]
        rw [show c.get (hashString (itemKey item)) =
            ((c.get (hashString (itemKey item))).1, (c.get (hashString (itemKey item))).2)
          from rfl, hget1]
        dsimp only
        obtain ⟨h1, h2, h3, h4, h5⟩ :=
          groupStarts_spec rest (c.get (hashString (itemKey item))).2 g2
        refine ⟨by rw [h1, g1], h2, fun p hp => g3 p (h3 p hp),
          fun k => by rw [h4, g4], ?_⟩
        rw [h5]
        have hpl : (fun it => (it, planOf (c.get (hashString (itemKey item))).2 it)) =
            (fun it => (it, planOf c it)) := by
          funext it
          unfold planOf
          by_cases hk2 : itemKey it = ""
          · simp [hk2]
          · simp only [if_neg hk2, g4]
        rw [hpl]
        simp only [List.map_cons, planOf, if_neg hkey, halook]

/-- The resolution phase of a group: the invariant is preserved with no
eviction (keys only grow), every nonempty processed text's hash is cached
afterwards, and the output is aligned with the plans — ids match, the
computed flag marks exactly the misses, an empty text scores `0`, and a
nonempty text scores the cosine of its own embedding. -/
theorem groupFinish_spec {α ε : Type} [LinearOrderedField α] [DecidableEq α] (rm : RMath α)
    (provider : String → Except ε (List α)) (ce : List α) (texts : List String)
    (H : Finset ℤ) :
    ∀ (plans : List (Item α × EmbedPlan α)) (c : LRUCache (List α))
      (out : List (String × α × Bool)) (cF : LRUCache (List α)),
      GCacheInv rm provider texts H c →
      (∀ pr ∈ plans,
        (pr.2 = EmbedPlan.skip ↔ itemKey pr.1 = "") ∧
        (itemKey pr.1 ≠ "" → itemKey pr.1 ∈ texts ∧ hashString (itemKey pr.1) ∈ H) ∧
        (∀ v, pr.2 = EmbedPlan.hit v →
          computeEmbedding rm provider (itemKey pr.1) = .ok v ∧
          hashString (itemKey pr.1) ∈ c.keys)) →
      groupFinish rm provider ce c plans = .ok (out, cF) →
      GCacheInv rm provider texts H cF ∧
      (∀ k, k ∈ c.keys → k ∈ cF.keys) ∧
      (∀ pr ∈ plans, itemKey pr.1 ≠ "" → hashString (itemKey pr.1) ∈ cF.keys) ∧
      out.length = plans.length ∧
      (∀ (idx : ℕ) (h1 : idx < plans.length) (h2 : idx < out.length),
        (out.get ⟨idx, h2⟩).1 = (plans.get ⟨idx, h1⟩).1.id ∧
        ((out.get ⟨idx, h2⟩).2.2 = true ↔ (plans.get ⟨idx, h1⟩).2 = EmbedPlan.miss) ∧
        (itemKey (plans.get ⟨idx, h1⟩).1 = "" → (out.get ⟨idx, h2⟩).2.1 = 0) ∧
        (itemKey (plans.get ⟨idx, h1⟩).1 ≠ "" →
          ∃ emb, computeEmbedding rm provider (itemKey (plans.get ⟨idx, h1⟩).1) = .ok emb ∧
            (out.get ⟨idx, h2⟩).2.1 = cosineSimilarity rm ce emb))
  | [], c, out, cF, hinv, _, hrun => by
    rw [show groupFinish rm provider ce c [] = .ok ([], c) from rfl,
      Except.ok.injEq, Prod.mk.injEq] at hrun
    obtain ⟨h1, h2⟩ := hrun
    subst h1
    subst h2
    exact ⟨hinv, fun _ hk => hk, fun _ hpr => absurd hpr (by simp), rfl,
      fun idx h1 _ => absurd h1 (by simp)⟩
  | (item, EmbedPlan.skip) :: rest, c, out, cF, hinv, hplans, hrun => by
    simp only [groupFinish] at hrun
    cases hrec : groupFinish rm provider ce c rest with
    | error e => rw [hrec] at hrun; exact absurd hrun (by simp)
    | ok pr =>
      rw [hrec] at hrun
      obtain ⟨outR, cR⟩ := pr
      rw [Except.ok.injEq, Prod.mk.injEq] at hrun
      obtain ⟨h1, h2⟩ := hrun
      subst h1
      subst h2
      have hplans2 := fun pr hpr => hplans pr (List.mem_cons_of_mem _ hpr)
      obtain ⟨i1, i2, i3, i4, i5⟩ :=
        groupFinish_spec rm provider ce texts H rest c outR cR hinv hplans2 hrec
      have hkey : itemKey item = "" := ((hplans _ (List.mem_cons_self _ _)).1).mp rfl
      refine ⟨i1, i2, ?_, by simpa using i4, ?_⟩
      · intro pr hpr hne
        rcases List.mem_cons.mp hpr with rfl | hpr
        · exact absurd hkey hne
        · exact i3 pr hpr hne
      · intro idx h1 h2
        match idx, h1, h2 with
        | 0, _, _ =>
          exact ⟨rfl, iff_of_false (by simp) (fun h => EmbedPlan.noConfusion h),
            fun _ => rfl, fun hne => absurd hkey hne⟩
        | idx + 1, h1, h2 =>
          exact i5 idx (by simpa using h1) (by simpa using h2)
  | (item, EmbedPlan.hit v) :: rest, c, out, cF, hinv, hplans, hrun => by
    simp only [groupFinish] at hrun
    cases hrec : groupFinish rm provider ce c rest with
    | error e => rw [hrec] at hrun; exact absurd hrun (by simp)
    | ok pr =>
      rw [hrec] at hrun
      obtain ⟨outR, cR⟩ := pr
      rw [Except.ok.injEq, Prod.mk.injEq] at hrun
      obtain ⟨h1, h2⟩ := hrun
      subst h1
      subst h2
      have hplans2 := fun pr hpr => hplans pr (List.mem_cons_of_mem _ hpr)
      obtain ⟨i1, i2, i3, i4, i5⟩ :=
        groupFinish_spec rm provider ce texts H rest c outR cR hinv hplans2 hrec
      have hne : itemKey item ≠ "" := fun hk =>
        EmbedPlan.noConfusion ((hplans _ (List.mem_cons_self _ _)).1.mpr hk)
      have hhit := (hplans _ (List.mem_cons_self _ _)).2.2 v rfl
      refine ⟨i1, i2, ?_, by simpa using i4, ?_⟩
      · intro pr hpr hprne
        rcases List.mem_cons.mp hpr with rfl | hpr
        · exact i2 _ hhit.2
        · exact i3 pr hpr hprne
      · intro idx h1 h2
        match idx, h1, h2 with
        | 0, _, _ =>
          exact ⟨rfl, iff_of_false (by simp) (fun h => EmbedPlan.noConfusion h),
            fun hk => absurd hk hne, fun _ => ⟨v, hhit.1, rfl⟩⟩
        | idx + 1, h1, h2 =>
          exact i5 idx (by simpa using h1) (by simpa using h2)
  | (item, EmbedPlan.miss) :: rest, c, out, cF, hinv, hplans, hrun => by
    simp only [groupFinish] at hrun
    cases hcomp : computeEmbedding rm provider (itemKey item) with
    | error e => rw [hcomp] at hrun; exact absurd hrun (by simp)
    | ok emb =>
      rw [hcomp] at hrun
      dsimp only at hrun
      cases hrec : groupFinish rm provider ce
          (c.set (hashString (itemKey item)) emb) rest with
      | error e => rw [hrec] at hrun; exact absurd hrun (by simp)
      | ok pr =>
        rw [hrec] at hrun
        obtain ⟨outR, cR⟩ := pr
        rw [Except.ok.injEq, Prod.mk.injEq] at hrun
        obtain ⟨h1, h2⟩ := hrun
        subst h1
        subst h2
        have hne : itemKey item ≠ "" := fun hk =>
          EmbedPlan.noConfusion ((hplans _ (List.mem_cons_self _ _)).1.mpr hk)
        have hmemH : hashString (itemKey item) ∈ H :=
          ((hplans _ (List.mem_cons_self _ _)).2.1 hne).2
        have htexm : itemKey item ∈ texts :=
          ((hplans _ (List.mem_cons_self _ _)).2.1 hne).1
        obtain ⟨sinv, smono, skmem, smax⟩ :=
          lru_set_inv hinv hmemH ⟨itemKey item, htexm, hne, rfl, hcomp⟩
        have hplans2 : ∀ pr ∈ rest,
            (pr.2 = EmbedPlan.skip ↔ itemKey pr.1 = "") ∧
            (itemKey pr.1 ≠ "" → itemKey pr.1 ∈ texts ∧ hashString (itemKey pr.1) ∈ H) ∧
            (∀ v, pr.2 = EmbedPlan.hit v →
              computeEmbedding rm provider (itemKey pr.1) = .ok v ∧
              hashString (itemKey pr.1) ∈
                (c.set (hashString (itemKey item)) emb).keys) := by
          intro pr hpr
          obtain ⟨c1, c2, c3⟩ := hplans pr (List.mem_cons_of_mem _ hpr)
          exact ⟨c1, c2, fun v hv => ⟨(c3 v hv).1, smono _ (c3 v hv).2⟩⟩
        obtain ⟨i1, i2, i3, i4, i5⟩ :=
          groupFinish_spec rm provider ce texts H rest _ outR cR sinv hplans2 hrec
        refine ⟨i1, fun k hk => i2 k (smono k hk), ?_, by simpa using i4, ?_⟩
        · intro pr hpr hprne
          rcases List.mem_cons.mp hpr with rfl | hpr
          · exact i2 _ skmem
          · exact i3 pr hpr hprne
        · intro idx h1 h2
          match idx, h1, h2 with
          | 0, _, _ =>
            exact ⟨rfl, iff_of_true rfl rfl, fun hk => absurd hk hne,
              fun _ => ⟨emb, hcomp, rfl⟩⟩
          | idx + 1, h1, h2 =>
            exact i5 idx (by simpa using h1) (by simpa using h2)

/-- Invariant of the whole group loop: the output aligns positionally with
the items (ids; `0`/not-computed for empty texts; otherwise each item
scores the cosine of its own text's embedding), a text whose hash is
already cached when the loop starts is never recomputed, a text also
occurring in a strictly earlier group is never recomputed, and the cache
invariant is preserved — all under the no-eviction budget `H` and
hash-injectivity on the run's texts. -/
theorem runGroups_inv {α ε : Type} [LinearOrderedField α] [DecidableEq α] (rm : RMath α)
    (provider : String → Except ε (List α)) (ce : List α) (texts : List String)
    (H : Finset ℤ) (conc : ℕ) (hc : 0 < conc)
    (hinj : ∀ t1 ∈ texts, ∀ t2 ∈ texts, t1 ≠ "" → t2 ≠ "" →
      hashString t1 = hashString t2 → t1 = t2) :
    ∀ (items : List (Item α)) (c : LRUCache (List α)) (out : List (String × α × Bool))
      (cF : LRUCache (List α)),
      GCacheInv rm provider texts H c →
      (∀ it ∈ items, itemKey it ∈ texts) →
      (∀ it ∈ items, itemKey it ≠ "" → hashString (itemKey it) ∈ H) →
      runGroups rm provider ce conc hc c items = .ok (out, cF) →
      out.length = items.length ∧
      (∀ (idx : ℕ) (h1 : idx < items.length) (h2 : idx < out.length),
        (out.get ⟨idx, h2⟩).1 = (items.get ⟨idx, h1⟩).id ∧
        (itemKey (items.get ⟨idx, h1⟩) = "" →
          (out.get ⟨idx, h2⟩).2.1 = 0 ∧ (out.get ⟨idx, h2⟩).2.2 = false) ∧
        (itemKey (items.get ⟨idx, h1⟩) ≠ "" →
          ∃ emb, computeEmbedding rm provider (itemKey (items.get ⟨idx, h1⟩)) = .ok emb ∧
            (out.get ⟨idx, h2⟩).2.1 = cosineSimilarity rm ce emb)) ∧
      (∀ (idx : ℕ) (h1 : idx < items.length) (h2 : idx < out.length),
        hashString (itemKey (items.get ⟨idx, h1⟩)) ∈ c.keys →
        (out.get ⟨idx, h2⟩).2.2 = false) ∧
      (∀ (i j : ℕ) (hi : i < items.length) (hj : j < items.length) (hj2 : j < out.length),
        i / conc < j / conc →
        itemKey (items.get ⟨i, hi⟩) = itemKey (items.get ⟨j, hj⟩) →
        (out.get ⟨j, hj2⟩).2.2 = false) ∧
      GCacheInv rm provider texts H cF
  | [], c, out, cF, hinv, _, _, hrun => by
    simp only [runGroups] at hrun
    rw [Except.ok.injEq, Prod.mk.injEq] at hrun
    obtain ⟨h1, h2⟩ := hrun
    subst h1
    subst h2
    exact ⟨rfl, fun idx h1 _ => absurd h1 (by simp),
      fun idx h1 _ _ => absurd h1 (by simp),
      fun i j hi _ _ _ _ => absurd hi (by simp), hinv⟩
  | item :: rest, c, out, cF, hinv, htex, hH, hrun => by
    obtain ⟨s1, s2, s3, s4, s5⟩ := groupStarts_spec ((item :: rest).take conc) c hinv.1
    simp only [runGroups] at hrun
    cases hfin : groupFinish rm provider ce (groupStarts c ((item :: rest).take conc)).1
        (groupStarts c ((item :: rest).take conc)).2 with
    | error e => rw [hfin] at hrun; exact absurd hrun (by simp)
    | ok prG =>
      rw [hfin] at hrun
      dsimp only at hrun
      obtain ⟨outG, cB⟩ := prG
      cases hrec : runGroups rm provider ce conc hc cB ((item :: rest).drop conc) with
      | error e => rw [hrec] at hrun; exact absurd hrun (by simp)
      | ok prR =>
        rw [hrec] at hrun
        obtain ⟨outR, cF2⟩ := prR
        rw [Except.ok.injEq, Prod.mk.injEq] at hrun
        obtain ⟨h1, h2⟩ := hrun
        subst h1
        subst h2
        have hinvA : GCacheInv rm provider texts H
            (groupStarts c ((item :: rest).take conc)).1 := by
          unfold GCacheInv at hinv ⊢
          obtain ⟨hnd, hsub, hcard, hent⟩ := hinv
          exact ⟨s2, fun k hk => hsub k (keys_mono_of_pairs s3 hk),
            by rw [s1]; exact hcard, fun p hp => hent p (s3 p hp)⟩
        have hplget : ∀ (idx : ℕ)
            (hp : idx < (groupStarts c ((item :: rest).take conc)).2.length)
            (hq : idx < (item :: rest).length),
            (groupStarts c ((item :: rest).take conc)).2.get ⟨idx, hp⟩ =
              ((item :: rest).get ⟨idx, hq⟩,
                planOf c ((item :: rest).get ⟨idx, hq⟩)) := by
          intro idx hp hq
          rw [List.get_of_eq s5 ⟨idx, hp⟩]
          simp only [List.get_eq_getElem, List.getElem_map, List.getElem_take]
        have hkeysA : ∀ k, k ∈ c.keys →
            k ∈ (groupStarts c ((item :: rest).take conc)).1.keys := by
          intro k hk
          by_contra hnk
          have h0 := alookup_eq_none_iff.mpr hnk
          rw [s4 k] at h0
          exact absurd hk (alookup_eq_none_iff.mp h0)
        have hplansG : ∀ pr ∈ (groupStarts c ((item :: rest).take conc)).2,
            (pr.2 = EmbedPlan.skip ↔ itemKey pr.1 = "") ∧
            (itemKey pr.1 ≠ "" → itemKey pr.1 ∈ texts ∧ hashString (itemKey pr.1) ∈ H) ∧
            (∀ v, pr.2 = EmbedPlan.hit v →
              computeEmbedding rm provider (itemKey pr.1) = .ok v ∧
              hashString (itemKey pr.1) ∈
                (groupStarts c ((item :: rest).take conc)).1.keys) := by
          intro pr hpr
          rw [s5] at hpr
          obtain ⟨it, hit, rfl⟩ := List.mem_map.mp hpr
          have hitem : it ∈ item :: rest := List.mem_of_mem_take hit
          refine ⟨?_, fun hne => ⟨htex it hitem, hH it hitem hne⟩, ?_⟩
          · constructor
            · intro hsk
              by_contra hk
              unfold planOf at hsk
              rw [if_neg hk] at hsk
              cases halk : alookup (hashString (itemKey it)) c.cache <;>
                rw [halk] at hsk <;> exact EmbedPlan.noConfusion hsk
            · intro hk
              unfold planOf
              rw [if_pos hk]
          · intro v hv
            unfold planOf at hv
            by_cases hk : itemKey it = ""
            · rw [if_pos hk] at hv
              exact absurd hv (fun h => EmbedPlan.noConfusion h)
            · rw [if_neg hk] at hv
              cases halk : alookup (hashString (itemKey it)) c.cache with
              | none =>
                rw [halk] at hv
                exact absurd hv (fun h => EmbedPlan.noConfusion h)
              | some w =>
                rw [halk] at hv
                injection hv with hv
                subst hv
                constructor
                · have hmem := mem_of_alookup_eq_some halk
                  obtain ⟨t2, ht2mem, ht2ne, ht2hash, ht2comp⟩ := hinv.2.2.2 _ hmem
                  have ht2eq : t2 = itemKey it :=
                    hinj t2 ht2mem _ (htex it hitem) ht2ne hk ht2hash
                  rw [← ht2eq]
                  exact ht2comp
                · apply hkeysA
                  by_contra hnk
                  have h0 := alookup_eq_none_iff.mpr hnk
                  rw [halk] at h0
                  exact Option.noConfusion h0
        obtain ⟨f1, f2, f3, f4, f5⟩ :=
          groupFinish_spec rm provider ce texts H _ _ outG cB hinvA hplansG hfin
        have htex2 : ∀ it ∈ (item :: rest).drop conc, itemKey it ∈ texts :=
          fun it hit => htex it (List.mem_of_mem_drop hit)
        have hH2 : ∀ it ∈ (item :: rest).drop conc, itemKey it ≠ "" →
            hashString (itemKey it) ∈ H :=
          fun it hit => hH it (List.mem_of_mem_drop hit)
        obtain ⟨r1, r2, r3, r4, r5⟩ := runGroups_inv rm provider ce texts H conc hc hinj
          ((item :: rest).drop conc) cB outR cF2 f1 htex2 hH2 hrec
        have hplen : (groupStarts c ((item :: rest).take conc)).2.length =
            min conc (item :: rest).length := by
          rw [s5, List.length_map, List.length_take]
        have hlenG : outG.length = min conc (item :: rest).length := by
          rw [f4, hplen]
        have hlenT : outR.length = ((item :: rest).drop conc).length := r1
        refine ⟨?_, ?_, ?_, ?_, r5⟩
        · rw [List.length_append, hlenG, hlenT, List.length_drop]
          omega
        · intro idx h1 h2
          by_cases hidx : idx < conc
          · have hiG : idx < outG.length := by rw [hlenG]; omega
            have hiP : idx < (groupStarts c ((item :: rest).take conc)).2.length := by
              rw [hplen]; omega
            have hout : (outG ++ outR).get ⟨idx, h2⟩ = outG.get ⟨idx, hiG⟩ := by
              simp only [List.get_eq_getElem]
              exact List.getElem_append_left hiG
            obtain ⟨p1, p2, p3, p4⟩ := f5 idx hiP hiG
            rw [hplget idx hiP h1] at p1 p2 p3 p4
            rw [hout]
            refine ⟨p1, ?_, p4⟩
            intro hk
            refine ⟨p3 hk, ?_⟩
            cases hflag : (outG.get ⟨idx, hiG⟩).2.2 with
            | false => rfl
            | true =>
              exfalso
              have hmiss := p2.mp hflag
              unfold planOf at hmiss
              rw [if_pos hk] at hmiss
              exact EmbedPlan.noConfusion hmiss
          · have hic : conc ≤ idx := Nat.le_of_not_lt hidx
            have hT1 : idx - conc < ((item :: rest).drop conc).length := by
              rw [List.length_drop]; omega
            have hT2 : idx - conc < outR.length := by
              rw [hlenT, List.length_drop]; omega
            have hgetI : (item :: rest).get ⟨idx, h1⟩ =
                ((item :: rest).drop conc).get ⟨idx - conc, hT1⟩ := by
              simp only [List.get_eq_getElem, List.getElem_drop]
              congr 1
              omega
            have hgetO : (outG ++ outR).get ⟨idx, h2⟩ = outR.get ⟨idx - conc, hT2⟩ := by
              simp only [List.get_eq_getElem]
              rw [List.getElem_append_right (by rw [hlenG]; omega)]
              congr 1
              rw [hlenG]
              omega
            rw [hgetO, hgetI]
            exact r2 (idx - conc) hT1 hT2
        · intro idx h1 h2 hkeymem
          by_cases hidx : idx < conc
          · have hiG : idx < outG.length := by rw [hlenG]; omega
            have hiP : idx < (groupStarts c ((item :: rest).take conc)).2.length := by
              rw [hplen]; omega
            have hout : (outG ++ outR).get ⟨idx, h2⟩ = outG.get ⟨idx, hiG⟩ := by
              simp only [List.get_eq_getElem]
              exact List.getElem_append_left hiG
            obtain ⟨p1, p2, p3, p4⟩ := f5 idx hiP hiG
            rw [hplget idx hiP h1] at p1 p2 p3 p4
            rw [hout]
            cases hflag : (outG.get ⟨idx, hiG⟩).2.2 with
            | false => rfl
            | true =>
              exfalso
              have hmiss := p2.mp hflag
              unfold planOf at hmiss
              by_cases hk : itemKey ((item :: rest).get ⟨idx, h1⟩) = ""
              · rw [if_pos hk] at hmiss
                exact EmbedPlan.noConfusion hmiss
              · rw [if_neg hk] at hmiss
                cases halk : alookup
                    (hashString (itemKey ((item :: rest).get ⟨idx, h1⟩))) c.cache with
                | some w =>
                  rw [halk] at hmiss
                  exact EmbedPlan.noConfusion hmiss
                | none => exact absurd hkeymem (alookup_eq_none_iff.mp halk)
          · have hic : conc ≤ idx := Nat.le_of_not_lt hidx
            have hT1 : idx - conc < ((item :: rest).drop conc).length := by
              rw [List.length_drop]; omega
            have hT2 : idx - conc < outR.length := by
              rw [hlenT, List.length_drop]; omega
            have hgetI : (item :: rest).get ⟨idx, h1⟩ =
                ((item :: rest).drop conc).get ⟨idx - conc, hT1⟩ := by
              simp only [List.get_eq_getElem, List.getElem_drop]
              congr 1
              omega
            have hgetO : (outG ++ outR).get ⟨idx, h2⟩ = outR.get ⟨idx - conc, hT2⟩ := by
              simp only [List.get_eq_getElem]
              rw [List.getElem_append_right (by rw [hlenG]; omega)]
              congr 1
              rw [hlenG]
              omega
            rw [hgetO]
            apply r3 (idx - conc) hT1 hT2
            rw [← hgetI]
            exact f2 _ (hkeysA _ hkeymem)
        · intro i j hi hj hj2 hdiv heq
          have hjc : conc ≤ j :=
            (Nat.one_le_div_iff hc).mp (Nat.lt_of_le_of_lt (Nat.zero_le _) hdiv)
          have hjT1 : j - conc < ((item :: rest).drop conc).length := by
            rw [List.length_drop]; omega
          have hjT2 : j - conc < outR.length := by
            rw [hlenT, List.length_drop]; omega
          have hgetJ : (item :: rest).get ⟨j, hj⟩ =
              ((item :: rest).drop conc).get ⟨j - conc, hjT1⟩ := by
            simp only [List.get_eq_getElem, List.getElem_drop]
            congr 1
            omega
          have hgetOJ : (outG ++ outR).get ⟨j, hj2⟩ = outR.get ⟨j - conc, hjT2⟩ := by
            simp only [List.get_eq_getElem]
            rw [List.getElem_append_right (by rw [hlenG]; omega)]
            congr 1
            rw [hlenG]
            omega
          rw [hgetOJ]
          by_cases hik : i < conc
          · by_cases hk : itemKey ((item :: rest).get ⟨j, hj⟩) = ""
            · have heqk : itemKey (((item :: rest).drop conc).get ⟨j - conc, hjT1⟩) = "" := by
                rw [← hgetJ]; exact hk
              exact ((r2 (j - conc) hjT1 hjT2).2.1 heqk).2
            · have hki : itemKey ((item :: rest).get ⟨i, hi⟩) ≠ "" := by
                rw [heq]; exact hk
              have hiP : i < (groupStarts c ((item :: rest).take conc)).2.length := by
                rw [hplen]; omega
              have hpmem : (((item :: rest).get ⟨i, hi⟩),
                  planOf c ((item :: rest).get ⟨i, hi⟩)) ∈
                    (groupStarts c ((item :: rest).take conc)).2 := by
                rw [← hplget i hiP hi]
                exact List.get_mem _ _ _
              have hcov := f3 _ hpmem hki
              apply r3 (j - conc) hjT1 hjT2
              rw [← hgetJ, ← heq]
              exact hcov
          · have hic : conc ≤ i := Nat.le_of_not_lt hik
            have hiT1 : i - conc < ((item :: rest).drop conc).length := by
              rw [List.length_drop]; omega
            have hgetI : (item :: rest).get ⟨i, hi⟩ =
                ((item :: rest).drop conc).get ⟨i - conc, hiT1⟩ := by
              simp only [List.get_eq_getElem, List.getElem_drop]
              congr 1
              omega
            have hone : 1 ≤ i / conc := (Nat.one_le_div_iff hc).mpr hic
            have hdiv2 : (i - conc) / conc < (j - conc) / conc := by
              rw [div_sub_one conc i hc hic, div_sub_one conc j hc hjc]
              omega
            apply r4 (i - conc) (j - conc) hiT1 hjT1 hjT2 hdiv2
            rw [← hgetI, ← hgetJ]
            exact heq
termination_by items _ _ _ _ _ _ _ => items.length
decreasing_by
  simp only [List.length_drop, List.length_cons]
  omega

/-! ## Claim C8 -/

set_option maxRecDepth 4000 in
/-- **C8, counterexample.**  Three behaviours of `batchRelevanceScores`'s
cache contradict the claim: (a) two identical texts inside one
default-width concurrency group each invoke the expensive computation even
with ample capacity — every promise of a group passes `cache.get` before
any `cache.set` runs (computed flags `true, true`; `computedCount` 2);
(b) at capacity one, the eviction caused by "b" makes the third item
recompute "a" even with sequential groups; (c) the int32 rolling hash
collides on "Aa"/"BB", so two items with the identical text "Aa" receive
different similarity scores (`1` and `-1`) — the cache is keyed by the
hash alone. -/
theorem embed_cache_counterexamples :
    computedCount itemsAA outAA.1 "a" = 2 ∧
    outAA.1.map (fun p => (p.1, p.2.2)) = [("1", true), ("2", true)] ∧
    computedCount itemsABA outABA.1 "a" = 2 ∧
    outABA.1.map (fun p => (p.1, p.2.2)) = [("1", true), ("2", true), ("3", true)] ∧
    hashString "Aa" = hashString "BB" ∧
    itemKey (itemsColl.get ⟨0, by decide⟩) = itemKey (itemsColl.get ⟨2, by decide⟩) ∧
    outColl.1.map (fun p => (p.1, p.2.1)) = [("1", 1), ("2", -1), ("3", -1)] := by
  refine ⟨by with_unfolding_all decide, by with_unfolding_all decide,
    by with_unfolding_all decide, by with_unfolding_all decide, by decide, by decide,
    by with_unfolding_all decide⟩

/-- **C8, amended.**  Within one `batchRelevanceScores` run starting from
an empty cache whose capacity covers the distinct nonempty texts (no
eviction) and whose texts are free of int32-hash collisions: any two items
with identical combined text receive identical similarity scores; an item
whose text also occurs in a strictly earlier concurrency group never
recomputes (later groups hit the content-addressed cache); and when no two
same-text items share a group (for instance with `concurrency = 1`) the
expensive embedding computation runs at most once per distinct text.
Within one group, same-text items each invoke it, and an eviction or a
hash collision breaks the guarantees — see the counterexamples. -/
theorem relevance_batch_cache_correctness {α ε : Type} [LinearOrderedField α]
    [DecidableEq α] (rm : RMath α) (provider : String → Except ε (List α))
    (conc : ℕ) (hc : 0 < conc) (cacheSize : ℕ) (ce : List α)
    (items : List (Item α)) (out : List (String × α × Bool)) (stF : EmbeddingContext α)
    (hcard : ((items.filter (fun it => itemKey it ≠ "")).map
        (fun it => hashString (itemKey it))).toFinset.card ≤ cacheSize)
    (hinj : ∀ it1 ∈ items, ∀ it2 ∈ items, itemKey it1 ≠ "" → itemKey it2 ≠ "" →
      hashString (itemKey it1) = hashString (itemKey it2) → itemKey it1 = itemKey it2)
    (hrun : EmbeddingContext.batchRelevanceRun rm provider conc hc
        { contextEmbedding := some ce, cache := { maxSize := cacheSize, cache := [] } }
        items = .ok (out, stF)) :
    (∀ pr1 ∈ items.zip out, ∀ pr2 ∈ items.zip out,
      itemKey pr1.1 = itemKey pr2.1 → pr1.2.2.1 = pr2.2.2.1) ∧
    (∀ (i j : ℕ) (hi : i < items.length) (hj : j < items.length) (hj2 : j < out.length),
      i / conc < j / conc →
      itemKey (items.get ⟨i, hi⟩) = itemKey (items.get ⟨j, hj⟩) →
      (out.get ⟨j, hj2⟩).2.2 = false) ∧
    ((∀ (i j : ℕ) (hi : i < items.length) (hj : j < items.length), i < j →
        itemKey (items.get ⟨i, hi⟩) = itemKey (items.get ⟨j, hj⟩) →
        itemKey (items.get ⟨j, hj⟩) ≠ "" → i / conc < j / conc) →
      ∀ t, computedCount items out t ≤ 1) := by
  simp only [EmbeddingContext.batchRelevanceRun] at hrun
  cases hrg : runGroups rm provider ce conc hc { maxSize := cacheSize, cache := [] }
      items with
  | error e => rw [hrg] at hrun; exact absurd hrun (by simp)
  | ok pr =>
    rw [hrg] at hrun
    obtain ⟨out2, cF⟩ := pr
    rw [Except.ok.injEq, Prod.mk.injEq] at hrun
    obtain ⟨h1, h2⟩ := hrun
    subst h1
    have hinv0 : GCacheInv rm provider (items.map itemKey)
        ((items.filter (fun it => itemKey it ≠ "")).map
          (fun it => hashString (itemKey it))).toFinset
        { maxSize := cacheSize, cache := [] } := by
      unfold GCacheInv
      exact ⟨by simp [LRUCache.keys], by simp [LRUCache.keys], hcard,
        fun p hp => absurd hp (by simp)⟩
    have htexts : ∀ it ∈ items, itemKey it ∈ items.map itemKey :=
      fun it hit => List.mem_map_of_mem _ hit
    have hH0 : ∀ it ∈ items, itemKey it ≠ "" →
        hashString (itemKey it) ∈ ((items.filter (fun it => itemKey it ≠ "")).map
          (fun it => hashString (itemKey it))).toFinset := by
      intro it hit hne
      exact List.mem_toFinset.mpr
        (List.mem_map_of_mem _ (List.mem_filter.mpr ⟨hit, by simpa using hne⟩))
    have hinj2 : ∀ t1 ∈ items.map itemKey, ∀ t2 ∈ items.map itemKey, t1 ≠ "" → t2 ≠ "" →
        hashString t1 = hashString t2 → t1 = t2 := by
      intro t1 ht1 t2 ht2 hn1 hn2 hh
      obtain ⟨it1, hit1, rfl⟩ := List.mem_map.mp ht1
      obtain ⟨it2, hit2, rfl⟩ := List.mem_map.mp ht2
      exact hinj it1 hit1 it2 hit2 hn1 hn2 hh
    obtain ⟨m1, m2, m3, m4, m5⟩ := runGroups_inv rm provider ce (items.map itemKey) _
      conc hc hinj2 items { maxSize := cacheSize, cache := [] } out2 cF hinv0 htexts hH0 hrg
    refine ⟨?_, ?_, ?_⟩
    · intro pr1 hpr1 pr2 hpr2 heq
      obtain ⟨k1, hk1⟩ := List.mem_iff_get.mp hpr1
      obtain ⟨k2, hk2⟩ := List.mem_iff_get.mp hpr2
      obtain ⟨a1, b1, e1⟩ := zip_get_eq items out2 k1 k1.isLt
      obtain ⟨a2, b2, e2⟩ := zip_get_eq items out2 k2 k2.isLt
      have hp1 : pr1 = (items.get ⟨k1, a1⟩, out2.get ⟨k1, b1⟩) := by
        rw [← hk1]; exact e1
      have hp2 : pr2 = (items.get ⟨k2, a2⟩, out2.get ⟨k2, b2⟩) := by
        rw [← hk2]; exact e2
      have h1a : pr1.1 = items.get ⟨k1, a1⟩ := by rw [hp1]
      have h1b : pr1.2 = out2.get ⟨k1, b1⟩ := by rw [hp1]
      have h2a : pr2.1 = items.get ⟨k2, a2⟩ := by rw [hp2]
      have h2b : pr2.2 = out2.get ⟨k2, b2⟩ := by rw [hp2]
      rw [h1a, h2a] at heq
      rw [h1b, h2b]
      by_cases hk : itemKey (items.get ⟨k1, a1⟩) = ""
      · have hk2e : itemKey (items.get ⟨k2, a2⟩) = "" := by rw [← heq]; exact hk
        rw [((m2 k1 a1 b1).2.1 hk).1, ((m2 k2 a2 b2).2.1 hk2e).1]
      · obtain ⟨emb1, hc1, hs1⟩ := (m2 k1 a1 b1).2.2 hk
        obtain ⟨emb2, hc2, hs2⟩ := (m2 k2 a2 b2).2.2 (by rw [← heq]; exact hk)
        rw [heq] at hc1
        rw [hc1] at hc2
        injection hc2 with hembeq
        rw [hs1, hs2, hembeq]
    · intro i j hi hj hj2 hdiv heqt
      exact m4 i j hi hj hj2 hdiv heqt
    · intro hsep t
      unfold computedCount
      apply length_filter_le_one_of_no_two
      intro a b ha hb hab hPa hPb
      obtain ⟨a1, a2, ea⟩ := zip_get_eq items out2 a ha
      obtain ⟨b1, b2, eb⟩ := zip_get_eq items out2 b hb
      rw [ea] at hPa
      rw [eb] at hPb
      simp only [Bool.and_eq_true, decide_eq_true_eq] at hPa hPb
      by_cases ht : t = ""
      · subst ht
        have h0 := ((m2 a a1 a2).2.1 hPa.1).2
        have h1 := hPa.2
        rw [h0] at h1
        exact absurd h1 (by simp)
      · have heq2 : itemKey (items.get ⟨a, a1⟩) = itemKey (items.get ⟨b, b1⟩) := by
          rw [hPa.1, hPb.1]
        have hne2 : itemKey (items.get ⟨b, b1⟩) ≠ "" := by
          rw [hPb.1]; exact ht
        have hdiv := hsep a b a1 b1 hab heq2 hne2
        have h0 := m4 a b a1 b1 b2 hdiv heq2
        have h1 := hPb.2
        rw [h0] at h1
        exact absurd h1 (by simp)

set_option maxRecDepth 4000 in
/-- Witness for `relevance_batch_cache_correctness`: a sequential run
(concurrency one, so no two same-text items share a group) with ample
capacity and collision-free texts "a", "b", "a" — the expensive
computation runs at most once for "a". -/
theorem relevance_batch_cache_correctness_witness :
    computedCount itemsABA outSeq.1 "a" ≤ 1 :=
  (relevance_batch_cache_correctness rm0 provOne 1 (by decide) 1000 [1] itemsABA
    outSeq.1 outSeq.2 (by decide) (by decide) (by with_unfolding_all rfl)).2.2
    (fun i j hi hj hij _ _ => by simpa using hij) "a"

/-! ## Claim C10 -/

/-- **C10.**  In any successful `filterItems` run, every valid input item
(non-empty id) is marked seen regardless of the relevance and novelty
thresholds: its id lands in the run-local seen set, and — when a
`NoveltyTracker` is supplied — the returned tracker's cache holds a novelty
record for it with `lastSeen = now` and a positive `seenCount` (created on
first sight, updated otherwise), even if the item was dropped. -/
theorem filterItems_marks_every_valid_item {α ε : Type} [LinearOrderedField α] [FloorRing α]
    [DecidableEq α] [∀ a b : α, Decidable (a ≤ b)] [∀ a b : α, Decidable (a < b)]
    (rm : RMath α) (provider : String → Except ε (List α))
    (parse : String → String → KeywordSet) (extractKw : String → List String)
    (now : α) (items : List (Item α)) (ctx : String) (options : FilterOptions α)
    (out : FilterOutput α)
    (hrun : filterItems rm provider parse extractKw now (some items) (some ctx) options =
      .ok out)
    (item : Item α) (hmem : item ∈ items) (hid : item.id ≠ "") :
    item.id ∈ out.filterCtx.seenIds ∧
    ∀ t0, options.noveltyTracker = some t0 →
      ∃ tF r, out.noveltyTracker = some tF ∧
        alookup item.id tF.cache = some r ∧ r.lastSeen = now ∧ 1 ≤ r.seenCount := by
  have hvmem : item ∈ (items.filter (fun item => item.id ≠ "")) :=
    List.mem_filter.mpr ⟨hmem, by simpa using hid⟩
  simp only [filterItems, Option.getD_some] at hrun
  split at hrun
  · next hempty =>
    rw [List.isEmpty_iff] at hempty
    subst hempty
    cases hmem
  · split at hrun
    · exact absurd hrun (by simp)
    · split at hrun
      · next hvempty =>
        rw [List.isEmpty_iff] at hvempty
        rw [hvempty] at hvmem
        cases hvmem
      · split at hrun
        · exact absurd hrun (by simp)
        · next st1 hset =>
          split at hrun
          · exact absurd hrun (by simp)
          · next rs st2 hbatch =>
            rw [Except.ok.injEq] at hrun
            subst hrun
            rw [filterLoop_state]
            constructor
            · exact foldl_fctx_marks _ _ item hvmem
            · intro t0 ht0
              rw [ht0]
              dsimp only
              rw [Option.map_some', foldl_tracker_markSeenSeq, Option.map_some']
              have hnow : ∀ op ∈ (items.filter (fun item => item.id ≠ "")).map
                  (fun i => (i.id, ({ title := i.title, source := i.source } : TrackerMeta),
                    now)), op.2.2 = now := by
                intro op hop
                rcases List.mem_map.mp hop with ⟨i, _, rfl⟩
                rfl
              have hin : item.id ∈ ((items.filter (fun item => item.id ≠ "")).map
                  (fun i => (i.id, ({ title := i.title, source := i.source } : TrackerMeta),
                    now))).map (fun op => op.1) := by
                rw [List.map_map]
                exact List.mem_map.mpr ⟨item, hvmem, rfl⟩
              obtain ⟨r, hr, hlast, hcount⟩ := markSeenSeq_marks now _ hnow
                (t0.loadBatch ((items.filter (fun item => item.id ≠ "")).map
                  (fun i => i.id))) item.id hin
              exact ⟨_, r, rfl, by rw [flush_fst_cache]; exact hr, hlast, hcount⟩

set_option maxRecDepth 4000 in
/-- Witness for `filterItems_marks_every_valid_item`: a full run over one
valid item with an unreachable relevance threshold — the item is dropped
(`results = []`) yet its id is in the seen set and the returned tracker
holds its fresh novelty record. -/
theorem filterItems_marks_every_valid_item_witness :
    outC10.results = [] ∧
    itemC10.id ∈ outC10.filterCtx.seenIds ∧
    ∃ tF r, outC10.noveltyTracker = some tF ∧
      alookup itemC10.id tF.cache = some r ∧ r.lastSeen = 0 ∧ 1 ≤ r.seenCount := by
  refine ⟨by with_unfolding_all decide, ?_⟩
  have h := filterItems_marks_every_valid_item rm0 provOne parse0 extract0 0 [itemC10] "c"
    optsC10 outC10 (by with_unfolding_all rfl) itemC10 (by decide) (by decide)
  exact ⟨h.1, h.2 (NoveltyTracker.init 7 0) rfl⟩

end SemanticRelevance
